import Mathlib

set_option maxHeartbeats 1000000

/-- Characters of a string literal; all definitions work on lists of
characters, mirroring JavaScript strings. -/
def cs (s : String) : List Char := s.data

deriving instance DecidableEq for Except

namespace GhostyPosty

/-! Shallow embedding of src/src/markdown-converter.ts and of
getPostMetadata from the plugin main file.  JavaScript strings are
modelled as List Char.  The regular expressions of the source are
deterministic on their patterns (every quantified character class
excludes the character that must follow it, so greedy or lazy matching
collapses to scanning up to the first occurrence of the stop
character); each one is embedded as an explicit leftmost-match
scanner. -/

/-- Does a list start with the given pattern?  (JS String.startsWith,
with the pattern as first argument.) -/
def startsWith : List Char → List Char → Bool
  | [], _ => true
  | _ :: _, [] => false
  | p :: ps, c :: rest => p = c && startsWith ps rest

/-- JS String.includes: does the needle occur as a contiguous substring? -/
def containsSub (needle : List Char) : List Char → Bool
  | [] => needle.isEmpty
  | c :: t => startsWith needle (c :: t) || containsSub needle t

/-- JS content.split with the separator regex of a carriage return
optionally preceding a newline: every newline ends a line and consumes
one carriage return immediately before it; a lone carriage return stays
inside its line. -/
def splitLinesRN : List Char → List (List Char)
  | [] => [[]]
  | '\r' :: '\n' :: rest => [] :: splitLinesRN rest
  | '\n' :: rest => [] :: splitLinesRN rest
  | c :: rest =>
    match splitLinesRN rest with
    | [] => [[c]]
    | l :: ls => (c :: l) :: ls

/-- Whitespace recognised by JS String.trim (the characters that can
occur in this plugin's notes). -/
def isJsSpace (c : Char) : Bool :=
  c = ' ' || c = '\t' || c = '\n' || c = '\r' || c = '\x0b' || c = '\x0c' || c = ' '

/-- The test lines[i].trim() !== '' of markdown-converter.ts line 41. -/
def trimNonempty (l : List Char) : Bool := l.any (fun c => !isJsSpace c)

/-- Scan up to the first occurrence of the stop character: returns the
characters before it and the characters after it, or none when the stop
character never occurs.  This is how a greedy character class that
excludes its follower behaves inside the source regexes. -/
def splitUntil (stop : Char) : List Char → Option (List Char × List Char)
  | [] => none
  | c :: t =>
    if c = stop then some ([], t)
    else (splitUntil stop t).map (fun ab => (c :: ab.1, ab.2))

/-- Like splitUntil with two stop characters; also reports which stop
character was hit. -/
def splitUntil2 (s1 s2 : Char) : List Char → Option (List Char × Char × List Char)
  | [] => none
  | c :: t =>
    if c = s1 || c = s2 then some ([], c, t)
    else (splitUntil2 s1 s2 t).map (fun ab => (c :: ab.1, ab.2.1, ab.2.2))

theorem splitUntil_eq {stop : Char} {l a b : List Char}
    (h : splitUntil stop l = some (a, b)) : l = a ++ stop :: b ∧ stop ∉ a := by
  induction l generalizing a b with
  | nil => simp [splitUntil] at h
  | cons c t ih =>
    by_cases hc : c = stop
    · simp only [splitUntil, if_pos hc, Option.some.injEq, Prod.mk.injEq] at h
      obtain ⟨ha, hb⟩ := h
      subst hc; subst ha; subst hb; simp
    · simp only [splitUntil, if_neg hc] at h
      cases hsp : splitUntil stop t with
      | none => rw [hsp] at h; simp at h
      | some ab =>
        obtain ⟨a0, b0⟩ := ab
        rw [hsp] at h
        simp only [Option.map, Option.some.injEq, Prod.mk.injEq] at h
        obtain ⟨ha, hb⟩ := h
        subst hb
        obtain ⟨h1, h2⟩ := ih hsp
        subst ha
        constructor
        · simp [h1]
        · simp only [List.mem_cons, not_or]
          exact ⟨fun h3 => hc h3.symm, h2⟩

theorem splitUntil2_eq {s1 s2 : Char} {l a b : List Char} {d : Char}
    (h : splitUntil2 s1 s2 l = some (a, d, b)) :
    l = a ++ d :: b ∧ (d = s1 ∨ d = s2) ∧ ∀ x ∈ a, x ≠ s1 ∧ x ≠ s2 := by
  induction l generalizing a b d with
  | nil => simp [splitUntil2] at h
  | cons c t ih =>
    by_cases hc : c = s1 ∨ c = s2
    · have hc2 : (c = s1 || c = s2) = true := by
        rcases hc with h1 | h1 <;> simp [h1]
      simp only [splitUntil2, hc2, if_pos, Option.some.injEq, Prod.mk.injEq, if_true] at h
      obtain ⟨ha, hd, hb⟩ := h
      subst ha; subst hd; subst hb
      exact ⟨rfl, hc, by simp⟩
    · push_neg at hc
      have hc2 : (c = s1 || c = s2) = false := by
        simp [hc.1, hc.2]
      simp only [splitUntil2, hc2, Bool.false_eq_true, if_false] at h
      cases hsp : splitUntil2 s1 s2 t with
      | none => rw [hsp] at h; simp at h
      | some ab =>
        obtain ⟨a0, d0, b0⟩ := ab
        rw [hsp] at h
        simp only [Option.map, Option.some.injEq, Prod.mk.injEq] at h
        obtain ⟨ha, hd, hb⟩ := h
        subst hd; subst hb
        obtain ⟨h1, h2, h3⟩ := ih hsp
        subst ha
        refine ⟨by simp [h1], h2, ?_⟩
        intro x hx
        rcases List.mem_cons.mp hx with hx | hx
        · subst hx; exact hc
        · exact h3 x hx

/-- Is this suffix a newline followed by three dashes?  This is where
the closing-delimiter search of the frontmatter regex can succeed. -/
def nlDashesAt : List Char → Bool
  | '\n' :: '-' :: '-' :: '-' :: _ => true
  | _ => false

/-- Index of the first newline-then-three-dashes occurrence, if any. -/
def findNlDashes : List Char → Option Nat
  | [] => none
  | c :: rest => if nlDashesAt (c :: rest) then some 0 else (findNlDashes rest).map (· + 1)

/-- Characters consumed by the trailing part of the frontmatter regex
(an optional carriage return then an optional newline, each greedy)
after the closing dashes. -/
def closeTrailLen : List Char → Nat
  | '\r' :: '\n' :: _ => 2
  | '\r' :: _ => 1
  | '\n' :: _ => 1
  | _ => 0

/-- Continuation of stripFrontmatter once the opening delimiter line has
matched: the lazy middle of the regex stops at the first newline that is
immediately followed by three dashes; with no such point the whole
regex fails and the input is returned unchanged. -/
def stripAfterOpen (markdown : List Char) (openLen : Nat) (r : List Char) : List Char × Nat :=
  match findNlDashes r with
  | none => (markdown, 0)
  | some m =>
    let consumed := openLen + m + 4 + closeTrailLen (r.drop (m + 4))
    (markdown.drop consumed, consumed)

/-- markdown-converter.ts lines 8-18: remove YAML frontmatter, returning
the remaining content and the matched length (frontmatterEndIndex). -/
def stripFrontmatter (markdown : List Char) : List Char × Nat :=
  match markdown with
  | '-' :: '-' :: '-' :: '\n' :: r => stripAfterOpen markdown 4 r
  | '-' :: '-' :: '-' :: '\r' :: '\n' :: r => stripAfterOpen markdown 5 r
  | _ => (markdown, 0)

/-- markdown-converter.ts lines 23-25. -/
def isLocalPath (path : List Char) : Bool :=
  !(startsWith (cs "http://") path || startsWith (cs "https://") path
    || startsWith (cs "data:") path)

/-- One attempt of the standard-image pattern at the current position:
bang, bracket, any characters other than a closing bracket (the alt),
closing bracket, opening paren, at least one character other than a
closing paren (the path), closing paren.  Returns the matched text, the
alt, the path and the rest of the input. -/
def mdImageMatchAt (s : List Char) : Option (List Char × List Char × List Char × List Char) :=
  match s with
  | '!' :: '[' :: r0 =>
    match splitUntil ']' r0 with
    | none => none
    | some (alt, r1) =>
      match r1 with
      | '(' :: r2 =>
        match splitUntil ')' r2 with
        | none => none
        | some (path, r4) =>
          if path.isEmpty then none
          else some ('!' :: '[' :: alt ++ ']' :: '(' :: path ++ [')'], alt, path, r4)
      | _ => none
  | _ => none

/-- The tail of the embed pattern after the pipe and the alt scan: the
alt must be non-empty and followed by the second closing bracket. -/
def embedAfterAlt2 (path alt r3 : List Char) :
    Option (List Char × List Char × Option (List Char) × List Char) :=
  if alt.isEmpty then none
  else
    match r3 with
    | ']' :: r5 =>
      some ('!' :: '[' :: '[' :: path ++ '|' :: alt ++ [']', ']'], path, some alt, r5)
    | _ => none

/-- Continuation of the embed pattern after the pipe: the alt segment
scan and the two closing brackets. -/
def embedAfterAlt (path : List Char) (altsplit : Option (List Char × List Char)) :
    Option (List Char × List Char × Option (List Char) × List Char) :=
  match altsplit with
  | none => none
  | some (alt, r3) => embedAfterAlt2 path alt r3

/-- The tail of the embed pattern after the path scan: either the path
stopped at a closing bracket, which must be doubled, or it stopped at a
pipe and the alt part follows. -/
def embedAfterPath2 (path : List Char) (d : Char) (r1 : List Char) :
    Option (List Char × List Char × Option (List Char) × List Char) :=
  if path.isEmpty then none
  else if d = ']' then
    match r1 with
    | ']' :: r2 => some ('!' :: '[' :: '[' :: path ++ [']', ']'], path, none, r2)
    | _ => none
  else if d = '|' then embedAfterAlt path (splitUntil ']' r1)
  else none

/-- Continuation of the embed pattern after the path scan. -/
def embedAfterPath (r0split : Option (List Char × Char × List Char)) :
    Option (List Char × List Char × Option (List Char) × List Char) :=
  match r0split with
  | none => none
  | some (path, d, r1) => embedAfterPath2 path d r1

/-- One attempt of the embed pattern at the current position: bang, two
brackets, at least one character that is neither a closing bracket nor
a pipe (the path), then either two closing brackets, or a pipe, at
least one character other than a closing bracket (the alt) and two
closing brackets.  Returns the matched text, the path, the optional alt
and the rest. -/
def embedMatchAt (s : List Char) : Option (List Char × List Char × Option (List Char) × List Char) :=
  match s with
  | '!' :: '[' :: '[' :: r0 => embedAfterPath (splitUntil2 ']' '|' r0)
  | _ => none

/-- One attempt of the wiki-link pattern: like the embed pattern but
without the leading bang.  Returns the link, the optional display text
and the rest. -/
def wikiMatchAt (s : List Char) : Option (List Char × Option (List Char) × List Char) :=
  match s with
  | '[' :: '[' :: r0 =>
    match splitUntil2 ']' '|' r0 with
    | none => none
    | some (link, d, r1) =>
      if link.isEmpty then none
      else
        match d, r1 with
        | ']', ']' :: r2 => some (link, none, r2)
        | '|', _ =>
          match splitUntil ']' r1 with
          | none => none
          | some (disp, r3) =>
            if disp.isEmpty then none
            else
              match r3 with
              | ']' :: r5 => some (link, some disp, r5)
              | _ => none
        | _, _ => none
  | _ => none

theorem mdImageMatchAt_decomp {s o a p r : List Char}
    (h : mdImageMatchAt s = some (o, a, p, r)) :
    s = o ++ r ∧ o = '!' :: '[' :: a ++ ']' :: '(' :: p ++ [')'] ∧ p ≠ [] ∧
      ']' ∉ a ∧ ')' ∉ p := by
  unfold mdImageMatchAt at h
  split at h
  case _ r0 =>
    split at h
    · exact absurd h (by simp)
    case _ alt r1 heq =>
      split at h
      case _ r2 =>
        split at h
        · exact absurd h (by simp)
        case _ path r4 heq2 =>
          split at h
          · exact absurd h (by simp)
          case _ hpne =>
            simp only [Option.some.injEq, Prod.mk.injEq] at h
            obtain ⟨ho, ha, hp, hr⟩ := h
            subst ho; subst ha; subst hp; subst hr
            obtain ⟨he1, he2⟩ := splitUntil_eq heq
            obtain ⟨he3, he4⟩ := splitUntil_eq heq2
            refine ⟨?_, rfl, by simpa using hpne, he2, he4⟩
            simp [he1, he3]
      · exact absurd h (by simp)
  · exact absurd h (by simp)

theorem embedMatchAt_decomp {s o p r : List Char} {al : Option (List Char)}
    (h : embedMatchAt s = some (o, p, al, r)) :
    s = o ++ r ∧ p ≠ [] ∧ (∀ x ∈ p, x ≠ ']' ∧ x ≠ '|') ∧
      ((al = none ∧ o = '!' :: '[' :: '[' :: p ++ [']', ']']) ∨
       (∃ alt, al = some alt ∧ alt ≠ [] ∧ ']' ∉ alt ∧
         o = '!' :: '[' :: '[' :: p ++ '|' :: alt ++ [']', ']'])) := by
  unfold embedMatchAt at h
  split at h
  case _ r0 =>
    unfold embedAfterPath at h
    split at h
    · exact absurd h (by simp)
    case _ path d r1 heq =>
      obtain ⟨he1, he2, he3⟩ := splitUntil2_eq heq
      unfold embedAfterPath2 at h
      split at h
      · exact absurd h (by simp)
      case _ hpne =>
        split at h
        case _ hd =>
          split at h
          case _ r2 =>
            simp only [Option.some.injEq, Prod.mk.injEq] at h
            obtain ⟨ho, hp2, hal, hr⟩ := h
            subst ho; subst hp2; subst hal; subst hr
            refine ⟨?_, by simpa using hpne, he3, Or.inl ⟨rfl, rfl⟩⟩
            subst hd
            simp [he1]
          · exact absurd h (by simp)
        case _ hd =>
          split at h
          case _ hd2 =>
            unfold embedAfterAlt at h
            split at h
            · exact absurd h (by simp)
            case _ alt r3 heq2 =>
              obtain ⟨hf1, hf2⟩ := splitUntil_eq heq2
              unfold embedAfterAlt2 at h
              split at h
              · exact absurd h (by simp)
              case _ hane =>
                split at h
                case _ r5 =>
                  simp only [Option.some.injEq, Prod.mk.injEq] at h
                  obtain ⟨ho, hp2, hal, hr⟩ := h
                  subst ho; subst hp2; subst hal; subst hr
                  refine ⟨?_, by simpa using hpne, he3,
                    Or.inr ⟨alt, rfl, by simpa using hane, hf2, rfl⟩⟩
                  subst hd2
                  simp [he1, hf1]
                · exact absurd h (by simp)
          · exact absurd h (by simp)
  · exact absurd h (by simp)

theorem wikiMatchAt_decomp {s r : List Char} {link : List Char} {di : Option (List Char)}
    (h : wikiMatchAt s = some (link, di, r)) :
    link ≠ [] ∧ (∀ x ∈ link, x ≠ ']' ∧ x ≠ '|') ∧
      ((di = none ∧ s = '[' :: '[' :: link ++ [']', ']'] ++ r) ∨
       (∃ disp, di = some disp ∧ disp ≠ [] ∧ ']' ∉ disp ∧
         s = '[' :: '[' :: link ++ '|' :: disp ++ [']', ']'] ++ r)) := by
  unfold wikiMatchAt at h
  split at h
  case _ r0 =>
    split at h
    · exact absurd h (by simp)
    case _ lk d r1 heq =>
      obtain ⟨he1, he2, he3⟩ := splitUntil2_eq heq
      split at h
      · exact absurd h (by simp)
      case _ hpne =>
        split at h
        case _ r2 =>
          simp only [Option.some.injEq, Prod.mk.injEq] at h
          obtain ⟨ho, hp, hal⟩ := h
          subst ho; subst hp; subst hal
          refine ⟨by simpa using hpne, he3, Or.inl ⟨rfl, ?_⟩⟩
          simp [he1]
        case _ =>
          split at h
          · exact absurd h (by simp)
          case _ disp r3 heq2 =>
            obtain ⟨hf1, hf2⟩ := splitUntil_eq heq2
            split at h
            · exact absurd h (by simp)
            case _ hane =>
              split at h
              case _ r5 =>
                simp only [Option.some.injEq, Prod.mk.injEq] at h
                obtain ⟨ho, hp, hal⟩ := h
                subst ho; subst hp; subst hal
                refine ⟨by simpa using hpne, he3,
                  Or.inr ⟨disp, rfl, by simpa using hane, hf2, ?_⟩⟩
                simp [he1, hf1]
              · exact absurd h (by simp)
        · exact absurd h (by simp)
  · exact absurd h (by simp)

theorem mdImageMatchAt_rest_lt {s o a p r : List Char}
    (h : mdImageMatchAt s = some (o, a, p, r)) : r.length < s.length := by
  obtain ⟨h1, h2, _⟩ := mdImageMatchAt_decomp h
  subst h1
  simp [h2]
  omega

theorem embedMatchAt_rest_lt {s o p r : List Char} {al : Option (List Char)}
    (h : embedMatchAt s = some (o, p, al, r)) : r.length < s.length := by
  obtain ⟨h1, hp, _, hcase⟩ := embedMatchAt_decomp h
  subst h1
  rcases hcase with ⟨_, h2⟩ | ⟨alt, _, _, _, h2⟩ <;> subst h2 <;> simp <;> omega

theorem wikiMatchAt_rest_lt {s r : List Char} {link : List Char} {di : Option (List Char)}
    (h : wikiMatchAt s = some (link, di, r)) : r.length < s.length := by
  obtain ⟨hp, _, hcase⟩ := wikiMatchAt_decomp h
  rcases hcase with ⟨_, h2⟩ | ⟨disp, _, _, _, h2⟩ <;> subst h2 <;> simp <;> omega

/-- Fuel-driven worker for scanMdImages; the fuel only serves
structural recursion and any amount at least the input length yields
the same result. -/
def scanMdAux : Nat → Nat → List Char → List (Nat × List Char × List Char × List Char)
  | 0, _, _ => []
  | fuel + 1, i, s =>
    match mdImageMatchAt s with
    | some (o, a, p, r) => (i, o, a, p) :: scanMdAux fuel (i + o.length) r
    | none =>
      match s with
      | [] => []
      | _ :: t => scanMdAux fuel (i + 1) t

theorem scanMdAux_fuel {fuel1 fuel2 i : Nat} {s : List Char}
    (h1 : s.length ≤ fuel1) (h2 : s.length ≤ fuel2) :
    scanMdAux fuel1 i s = scanMdAux fuel2 i s := by
  induction fuel1 generalizing fuel2 i s with
  | zero =>
    have hs : s = [] := List.eq_nil_of_length_eq_zero (Nat.le_zero.mp h1)
    subst hs
    cases fuel2 <;> rfl
  | succ n ih =>
    cases fuel2 with
    | zero =>
      have hs : s = [] := List.eq_nil_of_length_eq_zero (Nat.le_zero.mp h2)
      subst hs; rfl
    | succ m =>
      simp only [scanMdAux]
      cases hm : mdImageMatchAt s with
      | some x =>
        obtain ⟨o, a, p, r⟩ := x
        have hlt := mdImageMatchAt_rest_lt hm
        have hr : ∀ j : Nat, scanMdAux n j r = scanMdAux m j r := fun j =>
          ih (show r.length ≤ n by omega) (show r.length ≤ m by omega)
        simp only [hr]
      | none =>
        cases s with
        | nil => rfl
        | cons c t =>
          have h3 : t.length ≤ n := by simp at h1; omega
          have h4 : t.length ≤ m := by simp at h2; omega
          have hr : ∀ j : Nat, scanMdAux n j t = scanMdAux m j t := fun j => ih h3 h4
          simp only [hr]

/-- The global exec loop of markdown-converter.ts lines 48-66 without
the filtering: every standard-image match, with its start index, its
matched text, its alt and its path, in left-to-right order.  On a match
the scan resumes after the matched text; otherwise it advances one
character. -/
def scanMdImages (i : Nat) (s : List Char) :
    List (Nat × List Char × List Char × List Char) :=
  scanMdAux s.length i s

theorem scanMdImages_pos {s o a p r : List Char} {i : Nat}
    (h : mdImageMatchAt s = some (o, a, p, r)) :
    scanMdImages i s = (i, o, a, p) :: scanMdImages (i + o.length) r := by
  have hlt := mdImageMatchAt_rest_lt h
  unfold scanMdImages
  obtain ⟨n, hn⟩ : ∃ n, s.length = n + 1 := ⟨s.length - 1, by omega⟩
  rw [hn]
  simp only [scanMdAux, h]
  congr 1
  exact scanMdAux_fuel (by omega) (le_refl _)

theorem scanMdImages_neg_cons {c : Char} {t : List Char} {i : Nat}
    (h : mdImageMatchAt (c :: t) = none) :
    scanMdImages i (c :: t) = scanMdImages (i + 1) t := by
  unfold scanMdImages
  simp only [List.length_cons, scanMdAux, h]

theorem scanMdImages_nil (i : Nat) : scanMdImages i [] = [] := rfl

/-- Fuel-driven worker for scanEmbedImages. -/
def scanEmbedAux : Nat → Nat → List Char → List (Nat × List Char × List Char × Option (List Char))
  | 0, _, _ => []
  | fuel + 1, i, s =>
    match embedMatchAt s with
    | some (o, p, al, r) => (i, o, p, al) :: scanEmbedAux fuel (i + o.length) r
    | none =>
      match s with
      | [] => []
      | _ :: t => scanEmbedAux fuel (i + 1) t

theorem scanEmbedAux_fuel {fuel1 fuel2 i : Nat} {s : List Char}
    (h1 : s.length ≤ fuel1) (h2 : s.length ≤ fuel2) :
    scanEmbedAux fuel1 i s = scanEmbedAux fuel2 i s := by
  induction fuel1 generalizing fuel2 i s with
  | zero =>
    have hs : s = [] := List.eq_nil_of_length_eq_zero (Nat.le_zero.mp h1)
    subst hs
    cases fuel2 <;> rfl
  | succ n ih =>
    cases fuel2 with
    | zero =>
      have hs : s = [] := List.eq_nil_of_length_eq_zero (Nat.le_zero.mp h2)
      subst hs; rfl
    | succ m =>
      simp only [scanEmbedAux]
      cases hm : embedMatchAt s with
      | some x =>
        obtain ⟨o, p, al, r⟩ := x
        have hlt := embedMatchAt_rest_lt hm
        have hr : ∀ j : Nat, scanEmbedAux n j r = scanEmbedAux m j r := fun j =>
          ih (show r.length ≤ n by omega) (show r.length ≤ m by omega)
        simp only [hr]
      | none =>
        cases s with
        | nil => rfl
        | cons c t =>
          have h3 : t.length ≤ n := by simp at h1; omega
          have h4 : t.length ≤ m := by simp at h2; omega
          have hr : ∀ j : Nat, scanEmbedAux n j t = scanEmbedAux m j t := fun j => ih h3 h4
          simp only [hr]

/-- The global exec loop of markdown-converter.ts lines 69-90 without
the filtering: every embed match, with its start index, matched text,
path and optional alt, in left-to-right order. -/
def scanEmbedImages (i : Nat) (s : List Char) :
    List (Nat × List Char × List Char × Option (List Char)) :=
  scanEmbedAux s.length i s

theorem scanEmbedImages_pos {s o p r : List Char} {al : Option (List Char)} {i : Nat}
    (h : embedMatchAt s = some (o, p, al, r)) :
    scanEmbedImages i s = (i, o, p, al) :: scanEmbedImages (i + o.length) r := by
  have hlt := embedMatchAt_rest_lt h
  unfold scanEmbedImages
  obtain ⟨n, hn⟩ : ∃ n, s.length = n + 1 := ⟨s.length - 1, by omega⟩
  rw [hn]
  simp only [scanEmbedAux, h]
  congr 1
  exact scanEmbedAux_fuel (by omega) (le_refl _)

theorem scanEmbedImages_neg_cons {c : Char} {t : List Char} {i : Nat}
    (h : embedMatchAt (c :: t) = none) :
    scanEmbedImages i (c :: t) = scanEmbedImages (i + 1) t := by
  unfold scanEmbedImages
  simp only [List.length_cons, scanEmbedAux, h]

theorem scanEmbedImages_nil (i : Nat) : scanEmbedImages i [] = [] := rfl

/-- types.ts lines 40-46 (the originalSyntax field is named origText
here). -/
structure ImageReference where
  origText : List Char
  path : List Char
  alt : List Char
  isEmbed : Bool
  isFirstLine : Bool
deriving DecidableEq, Repr

/-- markdown-converter.ts line 74. -/
def imageExtensions : List (List Char) :=
  [cs "png", cs "jpg", cs "jpeg", cs "gif", cs "webp", cs "svg", cs "bmp"]

/-- markdown-converter.ts line 73: the substring after the last dot,
lowercased; the whole path when it has no dot (split-then-pop yields
the path itself). -/
def extOf (path : List Char) : List Char :=
  ((path.reverse.takeWhile (· != '.')).reverse).map Char.toLower

/-- The line number of a character offset: beforeMatch.split on line
separators, minus one — i.e. the number of newlines before the offset
(each separator contains exactly one newline). -/
def lineNumberAt (content : List Char) (i : Nat) : Nat :=
  (content.take i).count '\n'

/-- markdown-converter.ts lines 38-45: index of the first line whose
trimmed form is non-empty; none models the -1 sentinel. -/
def firstContentLineIndex (content : List Char) : Option Nat :=
  (splitLinesRN content).findIdx? trimNonempty

/-- The first loop of extractAllImages (markdown-converter.ts lines
48-66): keep the standard-syntax matches whose path is local. -/
def stdImageRefs (content : List Char) (firstIdx : Option Nat) : List ImageReference :=
  (scanMdImages 0 content).filterMap (fun m =>
    if isLocalPath m.2.2.2 then
      some { origText := m.2.1, path := m.2.2.2, alt := m.2.2.1, isEmbed := false,
             isFirstLine := some (lineNumberAt content m.1) == firstIdx }
    else none)

/-- The second loop of extractAllImages (markdown-converter.ts lines
69-90): keep the embed matches whose extension is on the allowlist. -/
def embedImageRefs (content : List Char) (firstIdx : Option Nat) : List ImageReference :=
  (scanEmbedImages 0 content).filterMap (fun m =>
    if imageExtensions.contains (extOf m.2.2.1) then
      some { origText := m.2.1, path := m.2.2.1, alt := (m.2.2.2).getD [], isEmbed := true,
             isFirstLine := some (lineNumberAt content m.1) == firstIdx }
    else none)

/-- markdown-converter.ts lines 31-93: strip frontmatter, then collect
the standard-syntax matches that have a local path, then the embed
matches whose extension is on the image allowlist, marking each with
whether its start offset lies on the first non-empty content line. -/
def extractAllImages (markdown : List Char) : List ImageReference :=
  let content := (stripFrontmatter markdown).1
  let firstIdx := firstContentLineIndex content
  stdImageRefs content firstIdx ++ embedImageRefs content firstIdx

/-- Fuel-driven worker for convertWikiLinks. -/
def wikiAux : Nat → List Char → List Char
  | 0, _ => []
  | fuel + 1, s =>
    match wikiMatchAt s with
    | some (link, di, rest) => (di.getD link) ++ wikiAux fuel rest
    | none =>
      match s with
      | [] => []
      | c :: t => c :: wikiAux fuel t

theorem wikiAux_fuel {fuel1 fuel2 : Nat} {s : List Char}
    (h1 : s.length ≤ fuel1) (h2 : s.length ≤ fuel2) :
    wikiAux fuel1 s = wikiAux fuel2 s := by
  induction fuel1 generalizing fuel2 s with
  | zero =>
    have hs : s = [] := List.eq_nil_of_length_eq_zero (Nat.le_zero.mp h1)
    subst hs
    cases fuel2 <;> rfl
  | succ n ih =>
    cases fuel2 with
    | zero =>
      have hs : s = [] := List.eq_nil_of_length_eq_zero (Nat.le_zero.mp h2)
      subst hs; rfl
    | succ m =>
      simp only [wikiAux]
      cases hm : wikiMatchAt s with
      | some x =>
        obtain ⟨link, di, r⟩ := x
        have hlt := wikiMatchAt_rest_lt hm
        have hr : wikiAux n r = wikiAux m r :=
          ih (show r.length ≤ n by omega) (show r.length ≤ m by omega)
        simp only [hr]
      | none =>
        cases s with
        | nil => rfl
        | cons c t =>
          have h3 : t.length ≤ n := by simp at h1; omega
          have h4 : t.length ≤ m := by simp at h2; omega
          have hr : wikiAux n t = wikiAux m t := ih h3 h4
          simp only [hr]

/-- markdown-converter.ts lines 100-104: global replace of wiki links
by their display text (or the link itself without one). -/
def convertWikiLinks (s : List Char) : List Char :=
  wikiAux s.length s

/-- Fuel-driven worker for convertImageEmbeds. -/
def embedRewriteAux : Nat → List Char → List Char
  | 0, _ => []
  | fuel + 1, s =>
    match embedMatchAt s with
    | some (_, path, al, rest) =>
      '!' :: '[' :: (al.getD []) ++ ']' :: '(' :: path ++ ')' :: embedRewriteAux fuel rest
    | none =>
      match s with
      | [] => []
      | c :: t => c :: embedRewriteAux fuel t

theorem embedRewriteAux_fuel {fuel1 fuel2 : Nat} {s : List Char}
    (h1 : s.length ≤ fuel1) (h2 : s.length ≤ fuel2) :
    embedRewriteAux fuel1 s = embedRewriteAux fuel2 s := by
  induction fuel1 generalizing fuel2 s with
  | zero =>
    have hs : s = [] := List.eq_nil_of_length_eq_zero (Nat.le_zero.mp h1)
    subst hs
    cases fuel2 <;> rfl
  | succ n ih =>
    cases fuel2 with
    | zero =>
      have hs : s = [] := List.eq_nil_of_length_eq_zero (Nat.le_zero.mp h2)
      subst hs; rfl
    | succ m =>
      simp only [embedRewriteAux]
      cases hm : embedMatchAt s with
      | some x =>
        obtain ⟨o, p, al, r⟩ := x
        have hlt := embedMatchAt_rest_lt hm
        have hr : embedRewriteAux n r = embedRewriteAux m r :=
          ih (show r.length ≤ n by omega) (show r.length ≤ m by omega)
        simp only [hr]
      | none =>
        cases s with
        | nil => rfl
        | cons c t =>
          have h3 : t.length ≤ n := by simp at h1; omega
          have h4 : t.length ≤ m := by simp at h2; omega
          have hr : embedRewriteAux n t = embedRewriteAux m t := ih h3 h4
          simp only [hr]

/-- markdown-converter.ts lines 111-115: global rewrite of every embed
(any extension) into standard image syntax, with empty alt by
default. -/
def convertImageEmbeds (s : List Char) : List Char :=
  embedRewriteAux s.length s

/-- markdown-converter.ts lines 145-161: drop the line that is the
first non-empty one and contains the featured image's matched text,
then rejoin with plain newlines. -/
def removeFeaturedLine (processed : List Char) (feat : ImageReference) : List Char :=
  let lines := splitLinesRN processed
  let firstIdx := firstContentLineIndex processed
  let filtered := (lines.enum.filter (fun li =>
    !(some li.1 == firstIdx && containsSub feat.origText li.2))).map (·.2)
  List.intercalate ['\n'] filtered

/-- markdown-converter.ts lines 117-122 (the warnings slot is kept). -/
structure ConversionResult where
  html : List Char
  warnings : List (List Char)
  images : List ImageReference
  featuredImage : Option ImageReference
deriving DecidableEq, Repr

/-- The processed text of markdown-converter.ts lines 142-167, up to
but not including the Showdown rendering: strip frontmatter, remove the
featured image's line, rewrite embeds to standard syntax, flatten wiki
links. -/
def processedText (markdown : List Char) (featuredImage : Option ImageReference) : List Char :=
  let processed0 := (stripFrontmatter markdown).1
  let processed1 :=
    match featuredImage with
    | some feat => removeFeaturedLine processed0 feat
    | none => processed0
  convertWikiLinks (convertImageEmbeds processed1)

/-- markdown-converter.ts lines 127-189.  The Showdown renderer is a
third-party library and enters only through the makeHtml parameter. -/
def convertMarkdownToHtml (makeHtml : List Char → List Char) (markdown : List Char) :
    ConversionResult :=
  let allImages := extractAllImages markdown
  let featuredImage := allImages.find? (fun img => img.isFirstLine)
  let contentImages :=
    match featuredImage with
    | some _ => allImages.filter (fun img => !img.isFirstLine)
    | none => allImages
  { html := makeHtml (processedText markdown featuredImage),
    warnings := [],
    images := contentImages,
    featuredImage := featuredImage }

/-! Embedding of getPostMetadata (plugin main file, lines 325-373).
Front-matter values are either strings or arrays of stringified
elements; the mapping itself is an ordered association list (an absent
mapping is the empty list).  The JS Date constructor is a host facility
and enters as the parseDate parameter, with none modelling an Invalid
Date; the resolution-time clock reading new Date() of line 354 enters
as the now parameter (milliseconds since the epoch).  A thrown
exception (RangeError from toISOString on an Invalid Date) is modelled
as Except.error. -/

/-- A front-matter value: a string or an array (of already stringified
elements). -/
inductive FMValue where
  | vstr (s : List Char)
  | varr (xs : List (List Char))
deriving DecidableEq, Repr

/-- JS truthiness for the values above: the empty string is falsy,
every other string and every array is truthy. -/
def truthy : FMValue → Bool
  | .vstr s => !s.isEmpty
  | .varr _ => true

/-- Property access on the front-matter mapping. -/
def fmLookup (fm : List (List Char × FMValue)) (k : List Char) : Option FMValue :=
  (fm.find? (fun kv => kv.1 == k)).map (·.2)

/-- The JS expression a or-else b on optional values: b when a is
absent or falsy. -/
def jsOrVal (a b : Option FMValue) : Option FMValue :=
  match a with
  | some v => if truthy v then some v else b
  | none => b

/-- JS String.split on a single separator character. -/
def splitOnChar (sep : Char) : List Char → List (List Char)
  | [] => [[]]
  | c :: t =>
    if c = sep then [] :: splitOnChar sep t
    else
      match splitOnChar sep t with
      | [] => [[c]]
      | l :: ls => (c :: l) :: ls

/-- JS String.trim. -/
def trimJs (l : List Char) : List Char :=
  ((l.dropWhile isJsSpace).reverse.dropWhile isJsSpace).reverse

/-- Main file lines 336-344: tags from an array are kept as given,
tags from a string are split on commas and trimmed, anything else
yields no tags. -/
def resolveTags (fm : List (List Char × FMValue)) : List (List Char) :=
  match fmLookup fm (cs "tags") with
  | some v =>
    if truthy v then
      match v with
      | .varr xs => xs
      | .vstr s => (splitOnChar ',' s).map trimJs
    else []
  | none => []

/-- Digits of a natural number, left padded with zeros to the given
width. -/
def padNum (w n : Nat) : List Char :=
  let d := Nat.toDigits 10 n
  List.replicate (w - d.length) '0' ++ d

/-- JS Date.prototype.toISOString on a valid date given as milliseconds
since the Unix epoch (proleptic Gregorian civil-from-days conversion;
years outside 0-9999, which ECMAScript prints in an expanded form, are
not needed here). -/
def toISOString (ms : Int) : List Char :=
  let day : Int := Int.fdiv ms 86400000
  let msod : Nat := (ms - day * 86400000).toNat
  let z : Int := day + 719468
  let era : Int := Int.fdiv z 146097
  let doe : Nat := (z - era * 146097).toNat
  let yoe : Nat := (doe - doe / 1460 + doe / 36524 - doe / 146096) / 365
  let doy : Nat := doe - (365 * yoe + yoe / 4 - yoe / 100)
  let mp : Nat := (5 * doy + 2) / 153
  let dayOfMonth : Nat := doy - (153 * mp + 2) / 5 + 1
  let m : Nat := if mp < 10 then mp + 3 else mp - 9
  let y : Int := (yoe : Int) + era * 400 + (if m ≤ 2 then 1 else 0)
  padNum 4 y.toNat ++ '-' :: padNum 2 m ++ '-' :: padNum 2 dayOfMonth ++
    'T' :: padNum 2 (msod / 3600000) ++ ':' :: padNum 2 (msod % 3600000 / 60000) ++
    ':' :: padNum 2 (msod % 60000 / 1000) ++ '.' :: padNum 3 (msod % 1000) ++ ['Z']

/-- types.ts lines 17-23, with the title and status kept as the raw JS
values the source assigns (the source performs no validation on
them). -/
structure PostMetadata where
  title : FMValue
  slug : Option FMValue
  tags : List (List Char)
  status : FMValue
  publishedAt : Option (List Char)
deriving DecidableEq, Repr

/-- Main file line 330: title from front matter when truthy, else the
file basename. -/
def resolveTitle (fm : List (List Char × FMValue)) (basename : List Char) : FMValue :=
  match fmLookup fm (cs "title") with
  | some v => if truthy v then v else .vstr basename
  | none => .vstr basename

/-- Main file line 347: status from front matter when truthy, else the
configured default. -/
def resolveStatus0 (fm : List (List Char × FMValue)) (defaultStatus : List Char) : FMValue :=
  match fmLookup fm (cs "status") with
  | some v => if truthy v then v else .vstr defaultStatus
  | none => .vstr defaultStatus

/-- Main file line 351: publish_date or-else date. -/
def schedValue (fm : List (List Char × FMValue)) : Option FMValue :=
  jsOrVal (fmLookup fm (cs "publish_date")) (fmLookup fm (cs "date"))

/-- Main file lines 325-373.  The else-if branch of line 360 calls
toISOString on the date object even when it is an Invalid Date, which
throws (modelled as Except.error). -/
def getPostMetadata (parseDate : FMValue → Option Int) (now : Int)
    (fm : List (List Char × FMValue)) (basename : List Char)
    (defaultStatus : List Char) : Except Unit PostMetadata :=
  let title := resolveTitle fm basename
  let slug := fmLookup fm (cs "slug")
  let tags := resolveTags fm
  let status0 := resolveStatus0 fm defaultStatus
  match schedValue fm with
  | some v =>
    if truthy v then
      match parseDate v with
      | some d =>
        if now < d then
          Except.ok { title := title, slug := slug, tags := tags,
                      status := .vstr (cs "scheduled"), publishedAt := some (toISOString d) }
        else if status0 = .vstr (cs "published") then
          Except.ok { title := title, slug := slug, tags := tags,
                      status := status0, publishedAt := some (toISOString d) }
        else
          Except.ok { title := title, slug := slug, tags := tags,
                      status := status0, publishedAt := none }
      | none =>
        if status0 = .vstr (cs "published") then Except.error ()
        else
          Except.ok { title := title, slug := slug, tags := tags,
                      status := status0, publishedAt := none }
    else
      Except.ok { title := title, slug := slug, tags := tags,
                  status := status0, publishedAt := none }
  | none =>
    Except.ok { title := title, slug := slug, tags := tags,
                status := status0, publishedAt := none }

/-! Embedding of replaceImageUrls (markdown-converter.ts lines
194-206).  For each mapped path the source builds the regex
src=["']path["'] with the path's regex metacharacters escaped — i.e. a
literal match of src=, one quote character of either kind, the path,
and one quote character of either kind — and globally replaces each
match by src=, a double quote, the mapped URL and a double quote.  The
Map iterates in insertion order, so the mapping is an ordered
association list folded from the left. -/

/-- Is this one of the two quote characters of the character class in
the source regex? -/
def isQuote (c : Char) : Bool := c = '"' || c = '\''

/-- Strip the first argument from the front of the second, or fail. -/
def stripPre : List Char → List Char → Option (List Char)
  | [], r => some r
  | _ :: _, [] => none
  | a :: as, b :: bs => if a = b then stripPre as bs else none

/-- One attempt of the src-attribute pattern for the given path at the
current position; returns the rest of the input after the match. -/
def srcMatchAt (p : List Char) (s : List Char) : Option (List Char) :=
  match s with
  | 's' :: 'r' :: 'c' :: '=' :: q1 :: rest =>
    if isQuote q1 then
      match stripPre p rest with
      | some (q2 :: rest2) => if isQuote q2 then some rest2 else none
      | _ => none
    else none
  | _ => none

theorem stripPre_eq {p r r2 : List Char} (h : stripPre p r = some r2) : r = p ++ r2 := by
  induction p generalizing r with
  | nil => simp [stripPre] at h; simp [h]
  | cons a as ih =>
    match r with
    | [] => simp [stripPre] at h
    | b :: bs =>
      by_cases hab : a = b
      · simp only [stripPre, if_pos hab] at h
        simp [hab, ih h]
      · simp [stripPre, hab] at h

theorem stripPre_of_eq (p r2 : List Char) : stripPre p (p ++ r2) = some r2 := by
  induction p with
  | nil => simp [stripPre]
  | cons a as ih => simp [stripPre, ih]

theorem srcMatchAt_some_iff {p s r : List Char} :
    srcMatchAt p s = some r ↔
      ∃ q1 q2, isQuote q1 = true ∧ isQuote q2 = true ∧
        s = 's' :: 'r' :: 'c' :: '=' :: q1 :: (p ++ q2 :: r) := by
  constructor
  · intro h
    unfold srcMatchAt at h
    split at h
    case _ q1 rest =>
      split at h
      case _ hq1 =>
        split at h
        case _ q2 rest2 heq =>
          split at h
          case _ hq2 =>
            simp only [Option.some.injEq] at h
            subst h
            exact ⟨q1, q2, hq1, hq2, by simp [stripPre_eq heq]⟩
          · exact absurd h (by simp)
        · exact absurd h (by simp)
      · exact absurd h (by simp)
    · exact absurd h (by simp)
  · rintro ⟨q1, q2, hq1, hq2, hs⟩
    subst hs
    simp [srcMatchAt, hq1, stripPre_of_eq, hq2]

theorem srcMatchAt_rest_lt {p s r : List Char} (h : srcMatchAt p s = some r) :
    r.length < s.length := by
  obtain ⟨q1, q2, _, _, hs⟩ := srcMatchAt_some_iff.mp h
  subst hs; simp; omega

/-- String.replace with a string replacement applies GetSubstitution
to it for every match: the two characters dollar dollar stand for one
dollar sign, dollar ampersand for the matched text, dollar backquote
for the part of the subject before the match, dollar apostrophe for
the part after it; everything else is copied, including a dollar sign
followed by anything else (the source's regex has no capture groups,
so numbered and named references also stay literal).  b is the text
before the match, m the matched text, a the text after it. -/
def dollarSubst (b m a : List Char) : List Char → List Char
  | [] => []
  | c :: t =>
    if c = '$' then
      match t with
      | [] => ['$']
      | c2 :: t2 =>
        if c2 = '$' then '$' :: dollarSubst b m a t2
        else if c2 = '&' then m ++ dollarSubst b m a t2
        else if c2 = Char.ofNat 96 then b ++ dollarSubst b m a t2
        else if c2 = '\'' then a ++ dollarSubst b m a t2
        else '$' :: c2 :: dollarSubst b m a t2
    else c :: dollarSubst b m a t

/-- Fuel-driven worker for replaceSrc.  pre is the part of the pass's
subject before the current position, needed by GetSubstitution. -/
def replaceSrcAux (p u : List Char) : Nat → List Char → List Char → List Char
  | 0, _, _ => []
  | fuel + 1, pre, s =>
    match srcMatchAt p s with
    | some rest =>
      dollarSubst pre (s.take (s.length - rest.length)) rest
          ('s' :: 'r' :: 'c' :: '=' :: '"' :: (u ++ ['"'])) ++
        replaceSrcAux p u fuel (pre ++ s.take (s.length - rest.length)) rest
    | none =>
      match s with
      | [] => []
      | c :: t => c :: replaceSrcAux p u fuel (pre ++ [c]) t

theorem replaceSrcAux_fuel {p u : List Char} {fuel1 fuel2 : Nat} {pre s : List Char}
    (h1 : s.length ≤ fuel1) (h2 : s.length ≤ fuel2) :
    replaceSrcAux p u fuel1 pre s = replaceSrcAux p u fuel2 pre s := by
  induction fuel1 generalizing fuel2 pre s with
  | zero =>
    have hs : s = [] := List.eq_nil_of_length_eq_zero (Nat.le_zero.mp h1)
    subst hs
    cases fuel2 <;> rfl
  | succ n ih =>
    cases fuel2 with
    | zero =>
      have hs : s = [] := List.eq_nil_of_length_eq_zero (Nat.le_zero.mp h2)
      subst hs; rfl
    | succ m =>
      simp only [replaceSrcAux]
      cases hm : srcMatchAt p s with
      | some r =>
        have hlt := srcMatchAt_rest_lt hm
        have hr : replaceSrcAux p u n (pre ++ s.take (s.length - r.length)) r =
            replaceSrcAux p u m (pre ++ s.take (s.length - r.length)) r :=
          ih (show r.length ≤ n by omega) (show r.length ≤ m by omega)
        simp only [hr]
      | none =>
        cases s with
        | nil => rfl
        | cons c t =>
          have h3 : t.length ≤ n := by simp at h1; omega
          have h4 : t.length ≤ m := by simp at h2; omega
          have hr : replaceSrcAux p u n (pre ++ [c]) t = replaceSrcAux p u m (pre ++ [c]) t :=
            ih h3 h4
          simp only [hr]

/-- One pass of String.replace with the pattern above: scan left to
right, replace each match by GetSubstitution applied to the string
src=, a double quote, the URL and a double quote, and resume after the
matched text. -/
def replaceSrc (p u : List Char) (s : List Char) : List Char :=
  replaceSrcAux p u s.length [] s

/-- When the replacement string contains no dollar sign, GetSubstitution
copies it unchanged. -/
theorem dollarSubst_no_dollar {b m a : List Char} :
    ∀ {rep : List Char}, (∀ c ∈ rep, c ≠ '$') → dollarSubst b m a rep = rep := by
  intro rep h
  induction rep with
  | nil => rfl
  | cons c t ih =>
    have hc : c ≠ '$' := h c (List.mem_cons_self _ _)
    rw [dollarSubst.eq_def]
    simp only []
    rw [if_neg hc]
    rw [ih (fun c2 hc2 => h c2 (List.mem_cons_of_mem _ hc2))]

/-- The replacement string built from a dollar-free URL is dollar-free. -/
theorem repNoDollar {u : List Char} (hud : ∀ c ∈ u, c ≠ '$') :
    ∀ c ∈ (('s' :: 'r' :: 'c' :: '=' :: '"' :: (u ++ ['"'])) : List Char), c ≠ '$' := by
  simp only [List.forall_mem_cons, List.forall_mem_append, List.forall_mem_singleton]
  exact ⟨by decide, by decide, by decide, by decide, by decide, hud, by decide⟩

/-- With a dollar-free URL the accumulated prefix never influences the
output. -/
theorem replaceSrcAux_pre {p u : List Char} (hud : ∀ c ∈ u, c ≠ '$') :
    ∀ (fuel : Nat) (pre1 pre2 s : List Char),
    replaceSrcAux p u fuel pre1 s = replaceSrcAux p u fuel pre2 s := by
  intro fuel
  induction fuel with
  | zero => intro pre1 pre2 s; rfl
  | succ n ih =>
    intro pre1 pre2 s
    cases hm : srcMatchAt p s with
    | some rest =>
      simp only [replaceSrcAux, hm]
      rw [dollarSubst_no_dollar (repNoDollar hud), dollarSubst_no_dollar (repNoDollar hud)]
      rw [ih (pre1 ++ s.take (s.length - rest.length))
        (pre2 ++ s.take (s.length - rest.length)) rest]
    | none =>
      cases s with
      | nil => rfl
      | cons c t =>
        simp only [replaceSrcAux, hm]
        rw [ih (pre1 ++ [c]) (pre2 ++ [c]) t]

/-- markdown-converter.ts lines 194-206: fold the passes over the
mapping in insertion order. -/
def replaceImageUrls (html : List Char) (urlMap : List (List Char × List Char)) : List Char :=
  urlMap.foldl (fun acc pu => replaceSrc pu.1 pu.2 acc) html

/-- Does the src-attribute pattern for this path match anywhere in the
text? -/
def hasSrcOcc (p : List Char) : List Char → Bool
  | [] => false
  | c :: t => (srcMatchAt p (c :: t)).isSome || hasSrcOcc p t

/-- Scan to the first quote character: the characters before it and the
characters after it. -/
def splitUntilQuote : List Char → Option (List Char × List Char)
  | [] => none
  | c :: t =>
    if isQuote c then some ([], t)
    else (splitUntilQuote t).map (fun ab => (c :: ab.1, ab.2))

/-- The paths referenced by src attributes of an HTML text, in order of
occurrence: after each src= and opening quote, the characters up to the
next quote character.  (Used to state the coverage hypothesis of the
round-trip claim.) -/
def srcAttrPaths : List Char → List (List Char)
  | [] => []
  | c :: t =>
    (match c :: t with
     | 's' :: 'r' :: 'c' :: '=' :: q1 :: rest =>
       if isQuote q1 then
         match splitUntilQuote rest with
         | some (path, _) => [path]
         | none => []
       else []
     | _ => []) ++ srcAttrPaths t

/-! Unfolding lemmas for the scanning functions. -/

theorem convertImageEmbeds_pos {s o p r : List Char} {al : Option (List Char)}
    (h : embedMatchAt s = some (o, p, al, r)) :
    convertImageEmbeds s =
      '!' :: '[' :: (al.getD []) ++ ']' :: '(' :: p ++ ')' :: convertImageEmbeds r := by
  have hlt := embedMatchAt_rest_lt h
  unfold convertImageEmbeds
  obtain ⟨n, hn⟩ : ∃ n, s.length = n + 1 := ⟨s.length - 1, by omega⟩
  rw [hn]
  simp only [embedRewriteAux, h]
  have hr : embedRewriteAux n r = embedRewriteAux r.length r :=
    embedRewriteAux_fuel (show r.length ≤ n by omega) (le_refl _)
  rw [hr]

theorem convertImageEmbeds_neg_cons {c : Char} {t : List Char}
    (h : embedMatchAt (c :: t) = none) :
    convertImageEmbeds (c :: t) = c :: convertImageEmbeds t := by
  unfold convertImageEmbeds
  simp only [List.length_cons, embedRewriteAux, h]

theorem convertImageEmbeds_nil : convertImageEmbeds [] = [] := rfl

theorem convertWikiLinks_pos {s r link : List Char} {di : Option (List Char)}
    (h : wikiMatchAt s = some (link, di, r)) :
    convertWikiLinks s = (di.getD link) ++ convertWikiLinks r := by
  have hlt := wikiMatchAt_rest_lt h
  unfold convertWikiLinks
  obtain ⟨n, hn⟩ : ∃ n, s.length = n + 1 := ⟨s.length - 1, by omega⟩
  rw [hn]
  simp only [wikiAux, h]
  have hr : wikiAux n r = wikiAux r.length r :=
    wikiAux_fuel (show r.length ≤ n by omega) (le_refl _)
  rw [hr]

theorem convertWikiLinks_neg_cons {c : Char} {t : List Char}
    (h : wikiMatchAt (c :: t) = none) :
    convertWikiLinks (c :: t) = c :: convertWikiLinks t := by
  unfold convertWikiLinks
  simp only [List.length_cons, wikiAux, h]

theorem convertWikiLinks_nil : convertWikiLinks [] = [] := rfl

theorem replaceSrc_pos {p u s rest : List Char} (hud : ∀ c ∈ u, c ≠ '$')
    (h : srcMatchAt p s = some rest) :
    replaceSrc p u s =
      's' :: 'r' :: 'c' :: '=' :: '"' :: (u ++ '"' :: replaceSrc p u rest) := by
  have hlt := srcMatchAt_rest_lt h
  unfold replaceSrc
  obtain ⟨n, hn⟩ : ∃ n, s.length = n + 1 := ⟨s.length - 1, by omega⟩
  rw [hn]
  simp only [replaceSrcAux, h]
  rw [dollarSubst_no_dollar (repNoDollar hud)]
  rw [replaceSrcAux_pre hud n ([] ++ List.take (s.length - rest.length) s) [] rest]
  have hr : replaceSrcAux p u n [] rest = replaceSrcAux p u rest.length [] rest :=
    replaceSrcAux_fuel (show rest.length ≤ n by omega) (le_refl _)
  rw [hr]
  simp

theorem replaceSrc_neg_cons {p u : List Char} {c : Char} {t : List Char}
    (hud : ∀ c2 ∈ u, c2 ≠ '$')
    (h : srcMatchAt p (c :: t) = none) :
    replaceSrc p u (c :: t) = c :: replaceSrc p u t := by
  unfold replaceSrc
  simp only [List.length_cons, replaceSrcAux, h]
  rw [replaceSrcAux_pre hud t.length ([] ++ [c]) [] t]

theorem replaceSrc_nil (p u : List Char) : replaceSrc p u [] = [] := rfl

/-! Structure of the extracted image collection. -/

theorem mem_stdImageRefs {content : List Char} {firstIdx : Option Nat} {r : ImageReference}
    (h : r ∈ stdImageRefs content firstIdx) :
    r.isEmbed = false ∧ isLocalPath r.path = true := by
  unfold stdImageRefs at h
  simp only [List.mem_filterMap] at h
  obtain ⟨m, _, hsome⟩ := h
  split at hsome
  · rename_i hloc
    simp only [Option.some.injEq] at hsome
    subst hsome
    exact ⟨rfl, hloc⟩
  · exact absurd hsome (by simp)

theorem mem_embedImageRefs {content : List Char} {firstIdx : Option Nat} {r : ImageReference}
    (h : r ∈ embedImageRefs content firstIdx) : r.isEmbed = true := by
  unfold embedImageRefs at h
  simp only [List.mem_filterMap] at h
  obtain ⟨m, _, hsome⟩ := h
  split at hsome
  · simp only [Option.some.injEq] at hsome
    subst hsome
    rfl
  · exact absurd hsome (by simp)

theorem extractAllImages_parts (md : List Char) :
    ∃ A B, extractAllImages md = A ++ B ∧
      (∀ r ∈ A, r.isEmbed = false ∧ isLocalPath r.path = true) ∧
      (∀ r ∈ B, r.isEmbed = true) := by
  refine ⟨stdImageRefs (stripFrontmatter md).1 (firstContentLineIndex (stripFrontmatter md).1),
    embedImageRefs (stripFrontmatter md).1 (firstContentLineIndex (stripFrontmatter md).1),
    rfl, ?_, ?_⟩
  · exact fun r hr => mem_stdImageRefs hr
  · exact fun r hr => mem_embedImageRefs hr

theorem convert_featuredImage (makeHtml : List Char → List Char) (md : List Char) :
    (convertMarkdownToHtml makeHtml md).featuredImage =
      (extractAllImages md).find? (fun img => img.isFirstLine) := rfl

theorem convert_images_some {makeHtml : List Char → List Char} {md : List Char}
    {f : ImageReference}
    (h : (extractAllImages md).find? (fun img => img.isFirstLine) = some f) :
    (convertMarkdownToHtml makeHtml md).images =
      (extractAllImages md).filter (fun img => !img.isFirstLine) := by
  unfold convertMarkdownToHtml
  simp only [h]

theorem convert_images_none {makeHtml : List Char → List Char} {md : List Char}
    (h : (extractAllImages md).find? (fun img => img.isFirstLine) = none) :
    (convertMarkdownToHtml makeHtml md).images = extractAllImages md := by
  unfold convertMarkdownToHtml
  simp only [h]

theorem images_subset_extract {makeHtml : List Char → List Char} {md : List Char}
    {r : ImageReference} (h : r ∈ (convertMarkdownToHtml makeHtml md).images) :
    r ∈ extractAllImages md := by
  cases hf : (extractAllImages md).find? (fun img => img.isFirstLine) with
  | some f =>
    rw [convert_images_some hf] at h
    exact List.mem_of_mem_filter h
  | none =>
    rw [convert_images_none hf] at h
    exact h

/-- C1 (corrected).  The featured image, when present, is the first
extracted reference lying on the first content line, never recurs in
the content images, and the content images are exactly the extracted
references that do not lie on the first content line.  Consequently
the union of images and featuredImage equals all locally-pathed
mentions only when at most one mention lies on the first line; any
additional first-line mentions are dropped (see the counterexample). -/
theorem featured_image_partition (makeHtml : List Char → List Char) (md : List Char) :
    ((convertMarkdownToHtml makeHtml md).featuredImage = none →
      (convertMarkdownToHtml makeHtml md).images = extractAllImages md) ∧
    (∀ f, (convertMarkdownToHtml makeHtml md).featuredImage = some f →
      f ∈ extractAllImages md ∧ f.isFirstLine = true ∧
      f ∉ (convertMarkdownToHtml makeHtml md).images ∧
      (convertMarkdownToHtml makeHtml md).images =
        (extractAllImages md).filter (fun img => !img.isFirstLine)) := by
  constructor
  · intro h
    rw [convert_featuredImage] at h
    exact convert_images_none h
  · intro f hf
    rw [convert_featuredImage] at hf
    have hmem : f ∈ extractAllImages md := List.mem_of_find?_eq_some hf
    have hfl : f.isFirstLine = true := List.find?_some hf
    have himg := @convert_images_some makeHtml md f hf
    refine ⟨hmem, hfl, ?_, himg⟩
    rw [himg]
    intro hcontra
    have := (List.mem_filter.mp hcontra).2
    rw [hfl] at this
    exact absurd this (by simp)

/-- Counterexample to C1 as stated: with two local standard images on
the first (and only) line, the second mention is extracted but lands
neither in images nor in featuredImage, so the union of images and
featuredImage is strictly smaller than the set of locally-pathed
mentions, and the remaining first-line mention does not fall into the
content images. -/
theorem featured_image_partition_cx :
    (⟨cs "![b](b.png)", cs "b.png", cs "b", false, true⟩ : ImageReference) ∈
        extractAllImages (cs "![a](a.png) ![b](b.png)") ∧
    (convertMarkdownToHtml id (cs "![a](a.png) ![b](b.png)")).featuredImage ≠
        some ⟨cs "![b](b.png)", cs "b.png", cs "b", false, true⟩ ∧
    (⟨cs "![b](b.png)", cs "b.png", cs "b", false, true⟩ : ImageReference) ∉
        (convertMarkdownToHtml id (cs "![a](a.png) ![b](b.png)")).images := by
  refine ⟨by decide, by decide, by decide⟩

/-- Witness for the corrected C1 at the worked scenario of the spec. -/
theorem featured_image_partition_witness :
    (⟨cs "![cover](cover.png)", cs "cover.png", cs "cover", false, true⟩ : ImageReference) ∈
        extractAllImages (cs "---\ntitle: Hi\n---\n![cover](cover.png)\n\nBody ![[inline.png]] text.") ∧
    (⟨cs "![cover](cover.png)", cs "cover.png", cs "cover", false, true⟩ : ImageReference).isFirstLine = true ∧
    (⟨cs "![cover](cover.png)", cs "cover.png", cs "cover", false, true⟩ : ImageReference) ∉
        (convertMarkdownToHtml id (cs "---\ntitle: Hi\n---\n![cover](cover.png)\n\nBody ![[inline.png]] text.")).images ∧
    (convertMarkdownToHtml id (cs "---\ntitle: Hi\n---\n![cover](cover.png)\n\nBody ![[inline.png]] text.")).images =
      (extractAllImages (cs "---\ntitle: Hi\n---\n![cover](cover.png)\n\nBody ![[inline.png]] text.")).filter
        (fun img => !img.isFirstLine) :=
  (featured_image_partition id
    (cs "---\ntitle: Hi\n---\n![cover](cover.png)\n\nBody ![[inline.png]] text.")).2
    ⟨cs "![cover](cover.png)", cs "cover.png", cs "cover", false, true⟩ (by decide)

/-- C6 (corrected).  Every extracted reference whose path is external
(http, https or data scheme) necessarily came from the embed pass: the
standard-syntax pass filters with isLocalPath, so an external reference
written as standard image syntax appears in neither images nor
featuredImage.  The embed pass, however, filters only by extension
(see the counterexample). -/
theorem external_paths_only_from_embeds (makeHtml : List Char → List Char) (md : List Char)
    (r : ImageReference)
    (h : r ∈ (convertMarkdownToHtml makeHtml md).images ∨
         (convertMarkdownToHtml makeHtml md).featuredImage = some r)
    (hext : isLocalPath r.path = false) : r.isEmbed = true := by
  have hmem : r ∈ extractAllImages md := by
    rcases h with h | h
    · exact images_subset_extract h
    · rw [convert_featuredImage] at h
      exact List.mem_of_find?_eq_some h
  obtain ⟨A, B, hAB, hA, hB⟩ := extractAllImages_parts md
  rw [hAB] at hmem
  rcases List.mem_append.mp hmem with h2 | h2
  · rw [(hA r h2).2] at hext
    exact absurd hext (by simp)
  · exact hB r h2

/-- Counterexample to C6 as stated: an embed-syntax mention of an
https URL with a png extension is extracted and becomes the featured
image. -/
theorem external_paths_only_from_embeds_cx :
    (convertMarkdownToHtml id (cs "![[https://a.com/b.png]]")).featuredImage =
      some ⟨cs "![[https://a.com/b.png]]", cs "https://a.com/b.png", [], true, true⟩ ∧
    isLocalPath (cs "https://a.com/b.png") = false := by
  refine ⟨by decide, by decide⟩

/-- Witness for the corrected C6: a non-local reference that did get
extracted (necessarily from the embed pass) is indeed an embed. -/
theorem external_paths_only_from_embeds_witness :
    (⟨cs "![[https://a.com/b.png]]", cs "https://a.com/b.png", [], true, false⟩ : ImageReference).isEmbed = true :=
  external_paths_only_from_embeds id (cs "x\n![[https://a.com/b.png]]")
    ⟨cs "![[https://a.com/b.png]]", cs "https://a.com/b.png", [], true, false⟩
    (Or.inl (by decide)) (by decide)

/-- C10 (confirmed).  The extracted collection is the concatenation of
the standard-syntax pass results and the embed pass results, so every
standard-syntax reference precedes every embed reference regardless of
document position; hence whenever some first-line standard-syntax
reference exists, the featured image (the first reference with the
first-line mark) is a standard-syntax one. -/
theorem std_refs_precede_embed_refs (makeHtml : List Char → List Char) (md : List Char) :
    (∃ A B, extractAllImages md = A ++ B ∧
      (∀ r ∈ A, r.isEmbed = false) ∧ (∀ r ∈ B, r.isEmbed = true)) ∧
    ((∃ r ∈ extractAllImages md, r.isFirstLine = true ∧ r.isEmbed = false) →
      ∃ f, (convertMarkdownToHtml makeHtml md).featuredImage = some f ∧
        f.isEmbed = false ∧ f.isFirstLine = true) := by
  obtain ⟨A, B, hAB, hA, hB⟩ := extractAllImages_parts md
  constructor
  · exact ⟨A, B, hAB, fun r hr => (hA r hr).1, hB⟩
  · rintro ⟨r, hmem, hfl, hemb⟩
    have hrA : r ∈ A := by
      rw [hAB] at hmem
      rcases List.mem_append.mp hmem with h2 | h2
      · exact h2
      · rw [hB r h2] at hemb
        exact absurd hemb (by simp)
    have hsome : (A.find? (fun img => img.isFirstLine)).isSome :=
      List.find?_isSome.mpr ⟨r, hrA, hfl⟩
    obtain ⟨f, hf⟩ := Option.isSome_iff_exists.mp hsome
    refine ⟨f, ?_, ?_, List.find?_some hf⟩
    · rw [convert_featuredImage, hAB, List.find?_append, hf, Option.or_some]
    · exact (hA f (List.mem_of_find?_eq_some hf)).1

/-- Witness for C10: with an embed mention occurring textually before a
standard mention on the same first line, the featured image is the
standard-syntax one. -/
theorem std_refs_precede_embed_refs_witness :
    ∃ f, (convertMarkdownToHtml id (cs "![[e.png]] ![a](a.png)")).featuredImage = some f ∧
      f.isEmbed = false ∧ f.isFirstLine = true :=
  (std_refs_precede_embed_refs id (cs "![[e.png]] ![a](a.png)")).2
    ⟨⟨cs "![a](a.png)", cs "a.png", cs "a", false, true⟩, by decide, by decide, by decide⟩

/-! Claims about the metadata resolver. -/

/-- C4 (confirmed).  Whenever the publish_date key (or, failing that,
the date key) holds a truthy value that parses to an instant strictly
after now, the resolver returns successfully with status scheduled —
regardless of the front-matter status and of the configured default —
and publishedAt is that instant in ISO form. -/
theorem future_date_forces_scheduled (parseDate : FMValue → Option Int) (now : Int)
    (fm : List (List Char × FMValue)) (basename defaultStatus : List Char)
    (v : FMValue) (d : Int)
    (hv : schedValue fm = some v) (ht : truthy v = true)
    (hd : parseDate v = some d) (hfut : now < d) :
    ∃ md, getPostMetadata parseDate now fm basename defaultStatus = Except.ok md ∧
      md.status = .vstr (cs "scheduled") ∧ md.publishedAt = some (toISOString d) := by
  simp only [getPostMetadata, hv, ht, hd, hfut, if_true]
  exact ⟨_, rfl, rfl, rfl⟩

/-- Witness for C4: a publish_date one day ahead of now forces status
scheduled with the ISO instant. -/
theorem future_date_forces_scheduled_witness :
    ∃ md, getPostMetadata (fun _ => some 86400000) 0
        [(cs "publish_date", .vstr (cs "1970-01-02"))] (cs "note") (cs "draft") =
        Except.ok md ∧
      md.status = .vstr (cs "scheduled") ∧
      md.publishedAt = some (toISOString 86400000) :=
  future_date_forces_scheduled (fun _ => some 86400000) 0
    [(cs "publish_date", .vstr (cs "1970-01-02"))] (cs "note") (cs "draft")
    (.vstr (cs "1970-01-02")) 86400000 (by decide) (by decide) rfl (by decide)

theorem resolveStatus0_ne_scheduled {fm : List (List Char × FMValue)}
    {defaultStatus : List Char}
    (hfm : fmLookup fm (cs "status") ≠ some (.vstr (cs "scheduled")))
    (hds : defaultStatus ≠ cs "scheduled") :
    resolveStatus0 fm defaultStatus ≠ .vstr (cs "scheduled") := by
  unfold resolveStatus0
  cases hl : fmLookup fm (cs "status") with
  | none =>
    intro hcontra
    exact hds (FMValue.vstr.inj hcontra)
  | some v =>
    by_cases htv : truthy v
    · simp only [htv, if_true]
      intro hcontra
      rw [hcontra] at hl
      exact hfm hl
    · simp only [htv, if_false]
      intro hcontra
      exact hds (FMValue.vstr.inj hcontra)

/-- C3 (corrected).  If the resolver succeeds with status scheduled,
and the scheduled status did not come verbatim from the front matter or
the configured default (the settings dropdown only offers draft and
published), then it was forced by the future-date rule, so publishedAt
is set and is the ISO form of an instant strictly after now.  Without
that proviso the invariant fails: an explicit scheduled status with a
past or missing date leaves publishedAt unset (see the
counterexample). -/
theorem scheduled_status_has_future_timestamp (parseDate : FMValue → Option Int) (now : Int)
    (fm : List (List Char × FMValue)) (basename defaultStatus : List Char)
    (md : PostMetadata)
    (hok : getPostMetadata parseDate now fm basename defaultStatus = Except.ok md)
    (hfm : fmLookup fm (cs "status") ≠ some (.vstr (cs "scheduled")))
    (hds : defaultStatus ≠ cs "scheduled")
    (hsched : md.status = .vstr (cs "scheduled")) :
    ∃ d, now < d ∧ md.publishedAt = some (toISOString d) := by
  have hst := resolveStatus0_ne_scheduled hfm hds
  simp only [getPostMetadata] at hok
  cases hsr : schedValue fm with
  | none =>
    rw [hsr] at hok
    simp only [Except.ok.injEq] at hok
    subst hok
    exact absurd hsched hst
  | some v =>
    rw [hsr] at hok
    by_cases htv : truthy v
    · simp only [htv, if_true] at hok
      cases hp : parseDate v with
      | none =>
        rw [hp] at hok
        by_cases hpub : resolveStatus0 fm defaultStatus = FMValue.vstr (cs "published")
        · simp only [hpub, if_true] at hok
          exact absurd hok (by simp)
        · simp only [hpub, if_false] at hok
          simp only [Except.ok.injEq] at hok
          subst hok
          exact absurd hsched hst
      | some d =>
        rw [hp] at hok
        by_cases hfd : now < d
        · simp only [hfd, if_true] at hok
          simp only [Except.ok.injEq] at hok
          subst hok
          exact ⟨d, hfd, rfl⟩
        · simp only [hfd, if_false] at hok
          by_cases hpub : resolveStatus0 fm defaultStatus = FMValue.vstr (cs "published")
          · simp only [hpub, if_true] at hok
            simp only [Except.ok.injEq] at hok
            subst hok
            exact absurd (FMValue.vstr.inj hsched) (by decide)
          · simp only [hpub, if_false] at hok
            simp only [Except.ok.injEq] at hok
            subst hok
            exact absurd hsched hst
    · simp only [htv, Bool.false_eq_true, if_false, Except.ok.injEq] at hok
      subst hok
      exact absurd hsched hst

/-- Counterexample to C3 as stated: an explicit front-matter status of
scheduled with no date at all resolves to status scheduled with
publishedAt unset, so the invariant that a scheduled result always
carries a future publishedAt fails on the code. -/
theorem scheduled_status_has_future_timestamp_cx :
    ∃ md, getPostMetadata (fun _ => none) 0
        [(cs "status", .vstr (cs "scheduled"))] (cs "note") (cs "draft") = Except.ok md ∧
      md.status = .vstr (cs "scheduled") ∧ md.publishedAt = none := by
  refine ⟨_, rfl, by decide, by decide⟩

/-- Witness for the corrected C3: when scheduled was forced by a future
date, publishedAt is a strictly future ISO instant. -/
theorem scheduled_status_has_future_timestamp_witness :
    ∃ d, (0 : Int) < d ∧
      (PostMetadata.mk (.vstr (cs "note")) none [] (.vstr (cs "scheduled"))
        (some (toISOString 100))).publishedAt = some (toISOString d) :=
  scheduled_status_has_future_timestamp (fun _ => some 100) 0
    [(cs "publish_date", .vstr (cs "x"))] (cs "note") (cs "draft")
    (PostMetadata.mk (.vstr (cs "note")) none [] (.vstr (cs "scheduled"))
      (some (toISOString 100)))
    (by decide) (by decide) (by decide) (by decide)

/-- C2 (code_bug).  The claim says an unparseable date is treated
exactly as an absent key and the resolver never throws; but when the
effective status is published and the date value is truthy yet
unparseable, line 362 calls toISOString on an Invalid Date, which
throws a RangeError.  This theorem evaluates the model at such an
input: the resolver aborts instead of returning a result. -/
theorem unparseable_date_published_throws :
    getPostMetadata (fun _ => none) 0
      [(cs "status", .vstr (cs "published")), (cs "publish_date", .vstr (cs "not-a-date"))]
      (cs "note") (cs "draft") = Except.error () := by decide

/-- C5 (corrected).  The resolver is a deterministic function of the
front-matter values at the six keys it reads (title, slug, tags,
status, publish_date, date), the fallback basename, the configured
default status, the date parser and the clock reading; but the clock
is read from the ambient new Date() inside getPostMetadata (main file
line 354) rather than being injected, so two invocations with
identical explicit inputs at different clock instants can differ (see
the counterexample). -/
theorem resolver_reads_only_six_keys (parseDate : FMValue → Option Int) (now : Int)
    (fm1 fm2 : List (List Char × FMValue)) (basename defaultStatus : List Char)
    (h : ∀ k ∈ [cs "title", cs "slug", cs "tags", cs "status", cs "publish_date", cs "date"],
      fmLookup fm1 k = fmLookup fm2 k) :
    getPostMetadata parseDate now fm1 basename defaultStatus =
      getPostMetadata parseDate now fm2 basename defaultStatus := by
  have h1 := h (cs "title") (by simp)
  have h2 := h (cs "slug") (by simp)
  have h3 := h (cs "tags") (by simp)
  have h4 := h (cs "status") (by simp)
  have h5 := h (cs "publish_date") (by simp)
  have h6 := h (cs "date") (by simp)
  simp only [getPostMetadata, resolveTitle, resolveStatus0, schedValue, resolveTags,
    h1, h2, h3, h4, h5, h6]

/-- Counterexample to C5 as stated: with identical front matter,
fallback, default and parser, the resolver's result differs between
two clock readings, because now is the ambient clock read inside the
resolver, not one of its explicit inputs. -/
theorem resolver_reads_only_six_keys_cx :
    getPostMetadata (fun _ => some 100) 0
        [(cs "publish_date", .vstr (cs "d"))] (cs "n") (cs "draft") ≠
      getPostMetadata (fun _ => some 100) 200
        [(cs "publish_date", .vstr (cs "d"))] (cs "n") (cs "draft") := by decide

/-- Witness for the corrected C5: an extra unread key does not change
the result. -/
theorem resolver_reads_only_six_keys_witness :
    getPostMetadata (fun _ => some 100) 0
        [(cs "title", .vstr (cs "T"))] (cs "n") (cs "draft") =
      getPostMetadata (fun _ => some 100) 0
        [(cs "title", .vstr (cs "T")), (cs "zzz", .vstr (cs "ignored"))] (cs "n") (cs "draft") :=
  resolver_reads_only_six_keys (fun _ => some 100) 0
    [(cs "title", .vstr (cs "T"))] [(cs "title", .vstr (cs "T")), (cs "zzz", .vstr (cs "ignored"))]
    (cs "n") (cs "draft") (by decide)

/-! Claims about frontmatter stripping. -/

/-- The rest of the input after a well-formed opening delimiter line
(three dashes and a line break at position 0), if one is present.
Used to state the no-op condition of the stripping claim. -/
def fmOpenRest : List Char → Option (List Char)
  | '-' :: '-' :: '-' :: '\n' :: r => some r
  | '-' :: '-' :: '-' :: '\r' :: '\n' :: r => some r
  | _ => none

/-- C7 (corrected).  Stripping is the identity with offset 0 whenever
the input does not open with a line of exactly three dashes, or opens
with one but the remainder contains no newline immediately followed by
three dashes (i.e. no later line even begins with three dashes).  The
original claim required a closing line of exactly three dashes, but the
regex accepts any line starting with three dashes as the closer (see
the counterexample). -/
theorem strip_frontmatter_noop (md : List Char)
    (h : ∀ r, fmOpenRest md = some r → findNlDashes r = none) :
    stripFrontmatter md = (md, 0) := by
  unfold stripFrontmatter
  split
  case _ r =>
    have hn := h r rfl
    simp [stripAfterOpen, hn]
  case _ r =>
    have hn := h r rfl
    simp [stripAfterOpen, hn]
  case _ =>
    rfl

/-- Counterexample to C7 as stated: the input opens with a line of
exactly three dashes, no later line is exactly three dashes (the last
line is three dashes followed by the letter b), yet stripping removes
a frontmatter block of nine characters instead of returning the input
unchanged. -/
theorem strip_frontmatter_noop_cx :
    (splitLinesRN (cs "---\na\n---b")).head? = some (cs "---") ∧
    (∀ l ∈ (splitLinesRN (cs "---\na\n---b")).drop 1, l ≠ cs "---") ∧
    stripFrontmatter (cs "---\na\n---b") ≠ (cs "---\na\n---b", 0) ∧
    stripFrontmatter (cs "---\na\n---b") = (cs "b", 9) := by decide

/-- Witness for the corrected C7 on two inputs: one with no opening
delimiter and one whose opening is never followed by a
newline-then-dashes closer. -/
theorem strip_frontmatter_noop_witness :
    stripFrontmatter (cs "plain text, no delimiters") = (cs "plain text, no delimiters", 0) ∧
    stripFrontmatter (cs "---\nunclosed front matter") = (cs "---\nunclosed front matter", 0) := by
  constructor
  · exact strip_frontmatter_noop (cs "plain text, no delimiters") (fun r hr => by
      rw [show fmOpenRest (cs "plain text, no delimiters") = none from rfl] at hr
      exact Option.noConfusion hr)
  · exact strip_frontmatter_noop (cs "---\nunclosed front matter") (fun r hr => by
      rw [show fmOpenRest (cs "---\nunclosed front matter") =
        some (cs "unclosed front matter") from rfl] at hr
      injection hr with h2
      subst h2
      decide)

/-! Claims about the content-rewriting passes. -/

theorem splitUntil_of_append {stop : Char} {a b : List Char} (h : stop ∉ a) :
    splitUntil stop (a ++ stop :: b) = some (a, b) := by
  induction a with
  | nil => simp [splitUntil]
  | cons c t ih =>
    have hc : c ≠ stop := fun hcontra => h (by simp [hcontra])
    have ht : stop ∉ t := fun hcontra => h (by simp [hcontra])
    simp only [List.cons_append, splitUntil, if_neg hc]
    change Option.map _ (splitUntil stop (t ++ stop :: b)) = _
    rw [ih ht]
    rfl

theorem splitUntil2_of_append {s1 s2 d : Char} {a b : List Char}
    (h : ∀ x ∈ a, x ≠ s1 ∧ x ≠ s2) (hd : d = s1 ∨ d = s2) :
    splitUntil2 s1 s2 (a ++ d :: b) = some (a, d, b) := by
  induction a with
  | nil =>
    have : (d = s1 || d = s2) = true := by rcases hd with h1 | h1 <;> simp [h1]
    simp [splitUntil2, this]
  | cons c t ih =>
    have hc := h c (by simp)
    have hc2 : (c = s1 || c = s2) = false := by simp [hc.1, hc.2]
    have ht : ∀ x ∈ t, x ≠ s1 ∧ x ≠ s2 := fun x hx => h x (by simp [hx])
    simp only [List.cons_append, splitUntil2, hc2, Bool.false_eq_true, if_false]
    change Option.map _ (splitUntil2 s1 s2 (t ++ d :: b)) = _
    rw [ih ht]
    rfl

theorem isEmpty_false_of_ne_nil {l : List Char} (h : l ≠ []) : l.isEmpty = false := by
  cases l with
  | nil => exact absurd rfl h
  | cons c t => rfl

theorem embedMatchAt_piped {path alt : List Char}
    (hp : path ≠ []) (hpc : ∀ x ∈ path, x ≠ ']' ∧ x ≠ '|') (ha : alt ≠ [])
    (hac : ']' ∉ alt) :
    embedMatchAt ('!' :: '[' :: '[' :: path ++ '|' :: alt ++ [']', ']']) =
      some ('!' :: '[' :: '[' :: path ++ '|' :: alt ++ [']', ']'], path, some alt, []) := by
  have hassoc : ((path ++ '|' :: alt) ++ [']', ']']) = path ++ '|' :: (alt ++ [']', ']']) := by
    simp
  have h2 : splitUntil2 ']' '|' ((path ++ '|' :: alt) ++ [']', ']']) =
      some (path, '|', alt ++ [']', ']']) := by
    rw [hassoc]
    exact splitUntil2_of_append hpc (Or.inr rfl)
  have hstep : embedMatchAt ('!' :: '[' :: '[' :: path ++ '|' :: alt ++ [']', ']']) =
      embedAfterPath (splitUntil2 ']' '|' ((path ++ '|' :: alt) ++ [']', ']'])) := rfl
  rw [hstep, h2]
  rw [show embedAfterPath (some (path, '|', alt ++ [']', ']'])) =
      embedAfterPath2 path '|' (alt ++ [']', ']']) from rfl]
  unfold embedAfterPath2
  simp only [isEmpty_false_of_ne_nil hp, Bool.false_eq_true, if_false, if_true]
  have h3 : splitUntil ']' (alt ++ [']', ']']) = some (alt, [']']) :=
    splitUntil_of_append hac
  rw [h3]
  rw [show embedAfterAlt path (some (alt, [']'])) = embedAfterAlt2 path alt [']'] from rfl]
  unfold embedAfterAlt2
  simp only [isEmpty_false_of_ne_nil ha, Bool.false_eq_true, if_false]
  rw [if_neg (show ¬('|' : Char) = ']' from by decide)]

theorem embedMatchAt_plain {path : List Char}
    (hp : path ≠ []) (hpc : ∀ x ∈ path, x ≠ ']' ∧ x ≠ '|') :
    embedMatchAt ('!' :: '[' :: '[' :: path ++ [']', ']']) =
      some ('!' :: '[' :: '[' :: path ++ [']', ']'], path, none, []) := by
  have h2 : splitUntil2 ']' '|' (path ++ [']', ']']) = some (path, ']', [']']) :=
    splitUntil2_of_append hpc (Or.inl rfl)
  have hstep : embedMatchAt ('!' :: '[' :: '[' :: path ++ [']', ']']) =
      embedAfterPath (splitUntil2 ']' '|' (path ++ [']', ']'])) := rfl
  rw [hstep, h2]
  rw [show embedAfterPath (some (path, ']', [']'])) = embedAfterPath2 path ']' [']'] from rfl]
  unfold embedAfterPath2
  simp only [isEmpty_false_of_ne_nil hp, Bool.false_eq_true, if_false, if_true]

/-- Does the text contain two adjacent closing brackets?  The wiki-link
pattern cannot match without them. -/
def hasDoubleRB : List Char → Bool
  | [] => false
  | c :: t => (c = ']' && t.head? == some ']') || hasDoubleRB t

theorem hasDoubleRB_append (x y : List Char) :
    hasDoubleRB (x ++ ']' :: ']' :: y) = true := by
  induction x with
  | nil => simp [hasDoubleRB]
  | cons c t ih => simp [hasDoubleRB, ih]

theorem wikiMatchAt_hasDoubleRB {s : List Char} {link : List Char}
    {di : Option (List Char)} {r : List Char}
    (h : wikiMatchAt s = some (link, di, r)) : hasDoubleRB s = true := by
  obtain ⟨_, _, hcase⟩ := wikiMatchAt_decomp h
  rcases hcase with ⟨_, h2⟩ | ⟨disp, _, _, _, h2⟩ <;> subst h2
  · have := hasDoubleRB_append ('[' :: '[' :: link) r
    simpa using this
  · have := hasDoubleRB_append ('[' :: '[' :: link ++ '|' :: disp) r
    simpa [List.append_assoc] using this

theorem convertWikiLinks_id {s : List Char} (h : hasDoubleRB s = false) :
    convertWikiLinks s = s := by
  suffices H : ∀ n s2, (s2 : List Char).length ≤ n → hasDoubleRB s2 = false →
      convertWikiLinks s2 = s2 from H s.length s (le_refl _) h
  intro n
  induction n with
  | zero =>
    intro s2 hs h2
    have : s2 = [] := List.eq_nil_of_length_eq_zero (Nat.le_zero.mp hs)
    subst this
    exact convertWikiLinks_nil
  | succ n ih =>
    intro s2 hs h2
    cases s2 with
    | nil => exact convertWikiLinks_nil
    | cons c t =>
      cases hm : wikiMatchAt (c :: t) with
      | some x =>
        obtain ⟨link, di, r⟩ := x
        rw [wikiMatchAt_hasDoubleRB hm] at h2
        exact absurd h2 (by simp)
      | none =>
        rw [convertWikiLinks_neg_cons hm]
        have ht : hasDoubleRB t = false := by
          have hexp : hasDoubleRB (c :: t) =
              ((c = ']' && t.head? == some ']') || hasDoubleRB t) := rfl
          rw [hexp] at h2
          exact (Bool.or_eq_false_iff.mp h2).2
        rw [ih t (by simp at hs; omega) ht]

theorem count_rb_le_one_no_double {l : List Char} (h : l.count ']' ≤ 1) :
    hasDoubleRB l = false := by
  induction l with
  | nil => rfl
  | cons c t ih =>
    by_cases hc : c = ']'
    · subst hc
      have hcount : t.count ']' = 0 := by
        rw [List.count_cons_self] at h
        omega
      have hnot : ']' ∉ t := by
        rw [← List.count_eq_zero]
        exact hcount
      have hhead : (t.head? == some ']') = false := by
        cases t with
        | nil => rfl
        | cons d t2 =>
          have hd : d ≠ ']' := fun hcontra => hnot (by simp [hcontra])
          simpa using hd
      have ht := ih (by omega)
      simp [hasDoubleRB, hhead, ht]
    · have hcount : t.count ']' ≤ 1 := by
        rw [List.count_cons_of_ne (Ne.symm hc)] at h
        exact h
      have ht := ih hcount
      simp only [hasDoubleRB, ht, Bool.or_false, Bool.and_eq_false_imp, decide_eq_true_eq]
      intro hcontra
      exact absurd hcontra hc

/-- C8 (confirmed).  Every embed-image mention, with any path (so any
extension, not only the extraction allowlist), is rewritten by
convertImageEmbeds into standard syntax: the piped form yields the pipe
segment as alt and the plain form yields an empty alt.  Moreover the
wiki-link flattening pass — which processedText applies only after the
embed rewrite — leaves the rewritten standard form unchanged, so in
particular the piped embed of a.png with caption becomes exactly the
standard caption image in the intermediate text (see the witness). -/
theorem embed_rewrite_to_standard (path alt : List Char)
    (hp : path ≠ []) (hpc : ∀ x ∈ path, x ≠ ']' ∧ x ≠ '|')
    (ha : alt ≠ []) (hac : ']' ∉ alt) :
    convertImageEmbeds ('!' :: '[' :: '[' :: path ++ '|' :: alt ++ [']', ']']) =
      '!' :: '[' :: alt ++ ']' :: '(' :: path ++ [')'] ∧
    convertImageEmbeds ('!' :: '[' :: '[' :: path ++ [']', ']']) =
      '!' :: '[' :: ']' :: '(' :: path ++ [')'] ∧
    convertWikiLinks (convertImageEmbeds ('!' :: '[' :: '[' :: path ++ '|' :: alt ++ [']', ']'])) =
      '!' :: '[' :: alt ++ ']' :: '(' :: path ++ [')'] := by
  have hone : convertImageEmbeds ('!' :: '[' :: '[' :: path ++ '|' :: alt ++ [']', ']']) =
      '!' :: '[' :: alt ++ ']' :: '(' :: path ++ [')'] := by
    rw [convertImageEmbeds_pos (embedMatchAt_piped hp hpc ha hac)]
    simp [convertImageEmbeds_nil]
  have htwo : convertImageEmbeds ('!' :: '[' :: '[' :: path ++ [']', ']']) =
      '!' :: '[' :: ']' :: '(' :: path ++ [')'] := by
    rw [convertImageEmbeds_pos (embedMatchAt_plain hp hpc)]
    simp [convertImageEmbeds_nil]
  refine ⟨hone, htwo, ?_⟩
  rw [hone]
  apply convertWikiLinks_id
  apply count_rb_le_one_no_double
  have hcalt : alt.count ']' = 0 := List.count_eq_zero.mpr hac
  have hcpath : path.count ']' = 0 :=
    List.count_eq_zero.mpr (fun hcontra => (hpc ']' hcontra).1 rfl)
  simp [List.count_cons, List.count_append, hcalt, hcpath]

/-- Witness for C8 at the worked example of the spec: the piped embed
of a.png with the caption alt becomes exactly the standard caption
image, both directly after the embed rewrite and after the subsequent
wiki-link flattening. -/
theorem embed_rewrite_to_standard_witness :
    convertImageEmbeds ('!' :: '[' :: '[' :: cs "a.png" ++ '|' :: cs "caption" ++ [']', ']']) =
      '!' :: '[' :: cs "caption" ++ ']' :: '(' :: cs "a.png" ++ [')'] ∧
    convertImageEmbeds ('!' :: '[' :: '[' :: cs "a.png" ++ [']', ']']) =
      '!' :: '[' :: ']' :: '(' :: cs "a.png" ++ [')'] ∧
    convertWikiLinks (convertImageEmbeds
        ('!' :: '[' :: '[' :: cs "a.png" ++ '|' :: cs "caption" ++ [']', ']'])) =
      '!' :: '[' :: cs "caption" ++ ']' :: '(' :: cs "a.png" ++ [')'] :=
  embed_rewrite_to_standard (cs "a.png") (cs "caption")
    (by decide) (by decide) (by decide) (by decide)

/-! Infrastructure for the URL-rewrite claim: occurrences of the
src-attribute pattern and how one replacement pass moves them. -/

theorem hasSrcOcc_nil (p : List Char) : hasSrcOcc p [] = false := rfl

theorem hasSrcOcc_cons (p : List Char) (c : Char) (t : List Char) :
    hasSrcOcc p (c :: t) = ((srcMatchAt p (c :: t)).isSome || hasSrcOcc p t) := rfl

/-- If the pattern cannot match at any position inside the prefix x
(including spilling over into R), the occurrences of x ++ R are exactly
those of R. -/
theorem hasSrcOcc_append_eq {p x R : List Char}
    (hx : ∀ v, v <:+ x → v ≠ [] → srcMatchAt p (v ++ R) = none) :
    hasSrcOcc p (x ++ R) = hasSrcOcc p R := by
  induction x with
  | nil => rfl
  | cons c t ih =>
    rw [List.cons_append, hasSrcOcc_cons]
    have h0 : srcMatchAt p ((c :: t) ++ R) = none :=
      hx (c :: t) (List.suffix_refl _) (by simp)
    rw [List.cons_append] at h0
    rw [h0]
    simp only [Option.isSome_none, Bool.false_or]
    exact ih (fun v hv hne => hx v (hv.trans (List.suffix_cons c t)) hne)

/-- Any suffix of an append is either a suffix of the right part, or a
non-empty suffix of the left part followed by the whole right part. -/
theorem suffix_append_cases {v a b : List Char} (h : v <:+ a ++ b) :
    v <:+ b ∨ ∃ a2, a2 <:+ a ∧ a2 ≠ [] ∧ v = a2 ++ b := by
  induction a with
  | nil => exact Or.inl (by simpa using h)
  | cons c t ih =>
    rw [List.cons_append] at h
    rcases List.suffix_cons_iff.mp h with h2 | h2
    · exact Or.inr ⟨c :: t, List.suffix_refl _, by simp, by simp [h2]⟩
    · rcases ih h2 with h3 | ⟨a2, h3, h4, h5⟩
      · exact Or.inl h3
      · exact Or.inr ⟨a2, h3.trans (List.suffix_cons c t), h4, h5⟩

/-- Two quote-bounded segments starting at the same position with
quote-free different contents cannot coincide. -/
theorem append_quote_clash {a b : List Char} {qa qb : Char} {x y : List Char}
    (ha : ∀ c ∈ a, isQuote c = false) (hb : ∀ c ∈ b, isQuote c = false)
    (hne : a ≠ b) (hqa : isQuote qa = true) (hqb : isQuote qb = true)
    (heq : a ++ qa :: x = b ++ qb :: y) : False := by
  induction a generalizing b with
  | nil =>
    cases b with
    | nil => exact hne rfl
    | cons b0 b2 =>
      simp only [List.nil_append, List.cons_append, List.cons.injEq] at heq
      have := hb b0 (by simp)
      rw [← heq.1] at this
      rw [hqa] at this
      exact absurd this (by simp)
  | cons a0 a2 ih =>
    cases b with
    | nil =>
      simp only [List.nil_append, List.cons_append, List.cons.injEq] at heq
      have := ha a0 (by simp)
      rw [heq.1, hqb] at this
      exact absurd this (by simp)
    | cons b0 b2 =>
      simp only [List.cons_append, List.cons.injEq] at heq
      exact ih (fun c hc => ha c (by simp [hc])) (fun c hc => hb c (by simp [hc]))
        (fun h2 => hne (by rw [heq.1, h2])) heq.2

/-- The pattern requires the letter s first. -/
theorem srcMatchAt_none_of_head {p : List Char} {c : Char} {t : List Char}
    (h : c ≠ 's') : srcMatchAt p (c :: t) = none := by
  cases hm : srcMatchAt p (c :: t) with
  | none => rfl
  | some w =>
    obtain ⟨q1, q2, _, _, hs⟩ := srcMatchAt_some_iff.mp hm
    simp only [List.cons.injEq] at hs
    exact absurd hs.1 h

theorem startsWith_append (needle y : List Char) :
    startsWith needle (needle ++ y) = true := by
  induction needle with
  | nil => rfl
  | cons c t ih => simp [startsWith, ih]

theorem containsSub_of_decomp (needle x y : List Char) :
    containsSub needle (x ++ needle ++ y) = true := by
  induction x with
  | nil =>
    cases hn : needle ++ y with
    | nil => simp at hn; simp [containsSub, hn]
    | cons c t =>
      rw [List.nil_append, hn, containsSub, ← hn, startsWith_append]
      rfl
  | cons c t ih =>
    rw [List.cons_append, List.cons_append, containsSub, ih]
    simp

/-- A match cannot start inside a quote-free segment that does not
contain the four characters of src= in a row, when the next character
after the segment is a quote: the first four pattern characters would
have to sit inside the segment or overlap the quote. -/
theorem srcMatchAt_none_within {z w : List Char} {q : Char} {T p : List Char}
    (hzq : ∀ c ∈ z, isQuote c = false)
    (hzs : containsSub (cs "src=") z = false)
    (hw : w <:+ z) (hwne : w ≠ []) (hq : isQuote q = true) :
    srcMatchAt p (w ++ q :: T) = none := by
  cases hm : srcMatchAt p (w ++ q :: T) with
  | none => rfl
  | some r =>
    exfalso
    obtain ⟨q1, q2, hq1, hq2, hs⟩ := srcMatchAt_some_iff.mp hm
    obtain ⟨pre, hpre⟩ := hw
    match w, hwne with
    | [w0], _ =>
      simp only [List.cons_append, List.nil_append, List.cons.injEq] at hs
      obtain ⟨_, h2, _⟩ := hs
      rw [h2] at hq
      exact absurd hq (by decide)
    | [w0, w1], _ =>
      simp only [List.cons_append, List.nil_append, List.cons.injEq] at hs
      obtain ⟨_, _, h3, _⟩ := hs
      rw [h3] at hq
      exact absurd hq (by decide)
    | [w0, w1, w2], _ =>
      simp only [List.cons_append, List.nil_append, List.cons.injEq] at hs
      obtain ⟨_, _, _, h4, _⟩ := hs
      rw [h4] at hq
      exact absurd hq (by decide)
    | w0 :: w1 :: w2 :: w3 :: wr, _ =>
      simp only [List.cons_append, List.cons.injEq] at hs
      obtain ⟨h1, h2, h3, h4, _⟩ := hs
      subst h1; subst h2; subst h3; subst h4
      have : containsSub (cs "src=") z = true := by
        rw [← hpre]
        have : pre ++ 's' :: 'r' :: 'c' :: '=' :: wr = (pre ++ cs "src=") ++ wr := by
          simp [cs]
        rw [this]
        exact containsSub_of_decomp (cs "src=") pre wr
      rw [this] at hzs
      exact absurd hzs (by simp)

theorem prefix_of_get_eq {r : List Char} : ∀ (t : List Char), r.length ≤ t.length →
    (∀ j, j < r.length → t.get? j = r.get? j) → ∃ rest, t = r ++ rest := by
  induction r with
  | nil => exact fun t _ _ => ⟨t, rfl⟩
  | cons a r2 ih =>
    intro t hlen h
    cases t with
    | nil => simp at hlen
    | cons b t2 =>
      have h0 := h 0 (by simp)
      simp only [List.get?_cons_zero, Option.some.injEq] at h0
      obtain ⟨rest, hrest⟩ := ih t2 (by simp at hlen ⊢; omega) (fun j hj => by
        have := h (j + 1) (by simp; omega)
        simpa using this)
      exact ⟨rest, by simp [h0, hrest]⟩

/-- The characters of the src pattern through its positions: the four
literal characters, the opening quote, the path characters and the
closing quote. -/
theorem patGet_path {rp w : List Char} {qa qb : Char} {j : Nat} (hj : j < rp.length) :
    (('s' :: 'r' :: 'c' :: '=' :: qa :: (rp ++ qb :: w)) : List Char).get? (j + 5) =
      rp.get? j := by
  have h1 : (('s' :: 'r' :: 'c' :: '=' :: qa :: (rp ++ qb :: w)) : List Char).get? (j + 5) =
      (rp ++ qb :: w).get? j := rfl
  rw [h1]
  exact List.get?_append hj

/-- A match at position zero transfers between two texts that agree on
the pattern area, allowing a quote to face a different quote (the
pattern accepts either kind at its two quote positions, and the path is
quote-free so quotes can only sit at those two positions). -/
theorem srcMatchAt_congr {rp : List Char} (hrq : ∀ c ∈ rp, isQuote c = false)
    {s1 s2 w : List Char} (h1 : srcMatchAt rp s1 = some w)
    (hlen : 6 + rp.length ≤ s2.length)
    (hpt : ∀ i, i < 6 + rp.length → s1.get? i = s2.get? i ∨
      (∃ a b, s1.get? i = some a ∧ s2.get? i = some b ∧
        isQuote a = true ∧ isQuote b = true)) :
    ∃ w2, srcMatchAt rp s2 = some w2 := by
  obtain ⟨q1, q2, hq1, hq2, hs1⟩ := srcMatchAt_some_iff.mp h1
  have hchar : ∀ (i : Nat) (c : Char), i < 4 →
      (('s' :: 'r' :: 'c' :: '=' :: q1 :: (rp ++ q2 :: w)) : List Char).get? i = some c →
      isQuote c = false := by
    intro i c hi hc
    have : i = 0 ∨ i = 1 ∨ i = 2 ∨ i = 3 := by omega
    rcases this with h | h | h | h <;> subst h <;>
      simp only [List.get?_cons_zero, List.get?_cons_succ, Option.some.injEq] at hc <;>
      rw [← hc] <;> decide
  -- the first four characters of s2 are s r c =
  have hfour : ∀ i : Nat, i < 4 → s2.get? i = s1.get? i := by
    intro i hi
    rcases hpt i (by omega) with h | ⟨a, b, ha, hb, hqa, hqb⟩
    · exact h.symm
    · exfalso
      rw [hs1] at ha
      have := hchar i a hi ha
      rw [hqa] at this
      exact absurd this (by simp)
  -- the opening quote of s2
  have hq4 : ∃ qa2, s2.get? 4 = some qa2 ∧ isQuote qa2 = true := by
    rcases hpt 4 (by omega) with h | ⟨a, b, ha, hb, hqa, hqb⟩
    · refine ⟨q1, ?_, hq1⟩
      rw [← h, hs1]
      rfl
    · exact ⟨b, hb, hqb⟩
  -- the path characters of s2
  have hpath : ∀ j : Nat, j < rp.length → s2.get? (j + 5) = rp.get? j := by
    intro j hj
    have hs1j : s1.get? (j + 5) = rp.get? j := by
      rw [hs1]
      exact patGet_path hj
    rcases hpt (j + 5) (by omega) with h | ⟨a, b, ha, hb, hqa, hqb⟩
    · rw [← h, hs1j]
    · exfalso
      rw [hs1j] at ha
      have : a ∈ rp := List.get?_mem ha
      have := hrq a this
      rw [hqa] at this
      exact absurd this (by simp)
  -- the closing quote of s2
  have hq5 : ∃ qb2, s2.get? (rp.length + 5) = some qb2 ∧ isQuote qb2 = true := by
    rcases hpt (rp.length + 5) (by omega) with h | ⟨a, b, ha, hb, hqa, hqb⟩
    · refine ⟨q2, ?_, hq2⟩
      rw [← h, hs1]
      have : (('s' :: 'r' :: 'c' :: '=' :: q1 :: (rp ++ q2 :: w)) : List Char).get?
          (rp.length + 5) = (rp ++ q2 :: w).get? rp.length := rfl
      rw [this, List.get?_append_right (le_refl _)]
      simp
    · exact ⟨b, hb, hqb⟩
  -- now peel s2
  obtain ⟨qa2, hqa2, hqa2q⟩ := hq4
  obtain ⟨qb2, hqb2, hqb2q⟩ := hq5
  have hg0 : s2.get? 0 = some 's' := by rw [hfour 0 (by omega), hs1]; rfl
  have hg1 : s2.get? 1 = some 'r' := by rw [hfour 1 (by omega), hs1]; rfl
  have hg2 : s2.get? 2 = some 'c' := by rw [hfour 2 (by omega), hs1]; rfl
  have hg3 : s2.get? 3 = some '=' := by rw [hfour 3 (by omega), hs1]; rfl
  have hpeel : ∀ (l : List Char) (a : Char), l.get? 0 = some a → ∃ t2, l = a :: t2 := by
    intro l a hl
    cases l with
    | nil => simp at hl
    | cons x xs =>
      simp only [List.get?_cons_zero, Option.some.injEq] at hl
      exact ⟨xs, by rw [hl]⟩
  obtain ⟨t1, ht1⟩ := hpeel s2 's' hg0
  subst ht1
  obtain ⟨t2, ht2⟩ := hpeel t1 'r' (by simpa using hg1)
  subst ht2
  obtain ⟨t3, ht3⟩ := hpeel t2 'c' (by simpa using hg2)
  subst ht3
  obtain ⟨t4, ht4⟩ := hpeel t3 '=' (by simpa using hg3)
  subst ht4
  obtain ⟨t5, ht5⟩ := hpeel t4 qa2 (by simpa using hqa2)
  subst ht5
  have hlen5 : rp.length + 1 ≤ t5.length := by
    simp only [List.length_cons] at hlen
    omega
  obtain ⟨rest, hrest⟩ := @prefix_of_get_eq rp t5 (by omega) (fun j hj => by
    have := hpath j hj
    simpa using this)
  have hqb2t : t5.get? rp.length = some qb2 := by
    have heq5 : (('s' :: 'r' :: 'c' :: '=' :: qa2 :: t5) : List Char).get? (rp.length + 5) =
        t5.get? rp.length := rfl
    rw [← heq5]
    exact hqb2
  rw [hrest, List.get?_append_right (le_refl _)] at hqb2t
  simp only [Nat.sub_self] at hqb2t
  cases rest with
  | nil => simp at hqb2t
  | cons rb rest2 =>
    simp only [List.get?_cons_zero, Option.some.injEq] at hqb2t
    subst hqb2t
    refine ⟨rest2, srcMatchAt_some_iff.mpr ⟨qa2, rb, hqa2q, hqb2q, ?_⟩⟩
    rw [hrest]

/-- Forward transfer: a match of any quote-free pattern path rp in the
output of one replacement pass, at a position spanning prefix x, gives
a match at the same position in the pass's input.  Needs the URL to be
quote-free and distinct from rp. -/
theorem srcMatch_transfer_fwd {rp p u : List Char}
    (hrq : ∀ c ∈ rp, isQuote c = false)
    (huq : ∀ c ∈ u, isQuote c = false)
    (hud : ∀ c ∈ u, c ≠ '$')
    (hru : rp ≠ u) :
    ∀ t x w, srcMatchAt rp (x ++ replaceSrc p u t) = some w →
      ∃ w2, srcMatchAt rp (x ++ t) = some w2 := by
  suffices H : ∀ n t, t.length ≤ n → ∀ x w,
      srcMatchAt rp (x ++ replaceSrc p u t) = some w →
      ∃ w2, srcMatchAt rp (x ++ t) = some w2 from
    fun t x w h => H t.length t (le_refl _) x w h
  intro n
  induction n with
  | zero =>
    intro t ht x w hm
    have hnil : t = [] := List.eq_nil_of_length_eq_zero (Nat.le_zero.mp ht)
    subst hnil
    rw [replaceSrc_nil] at hm
    exact ⟨w, hm⟩
  | succ n ih =>
    intro t ht x w hm
    cases hmt : srcMatchAt p t with
    | none =>
      cases t with
      | nil =>
        rw [replaceSrc_nil] at hm
        exact ⟨w, hm⟩
      | cons c t2 =>
        rw [replaceSrc_neg_cons hud hmt] at hm
        rw [show x ++ c :: replaceSrc p u t2 = (x ++ [c]) ++ replaceSrc p u t2 from by simp]
          at hm
        obtain ⟨w2, hw2⟩ := ih t2 (by simp at ht; omega) (x ++ [c]) w hm
        refine ⟨w2, ?_⟩
        rw [show x ++ c :: t2 = (x ++ [c]) ++ t2 from by simp]
        exact hw2
    | some rest =>
      obtain ⟨q1, q2, hq1, hq2, hteq⟩ := srcMatchAt_some_iff.mp hmt
      rw [replaceSrc_pos hud hmt] at hm
      by_cases hx : x = []
      · subst hx
        exfalso
        simp only [List.nil_append] at hm
        obtain ⟨qa, qb, hqa, hqb, hseq⟩ := srcMatchAt_some_iff.mp hm
        simp only [List.cons.injEq] at hseq
        obtain ⟨_, _, _, _, _, hrest2⟩ := hseq
        exact append_quote_clash huq hrq (fun h => hru h.symm) (by decide) hqb hrest2
      · have hxlen : 1 ≤ x.length := by
          cases x with
          | nil => exact absurd rfl hx
          | cons a b => simp
        obtain ⟨qa, qb, hqa, hqb, hseq⟩ := srcMatchAt_some_iff.mp hm
        have hA : 6 + rp.length ≤ x.length + 5 := by
          by_contra hA2
          push_neg at hA2
          have hv1 : (x ++ ('s' :: 'r' :: 'c' :: '=' :: '"' ::
              (u ++ '"' :: replaceSrc p u rest))).get? (x.length + 4) = some '"' := by
            rw [List.get?_append_right (by omega)]
            simp only [Nat.add_sub_cancel_left]
            rfl
          have hv2 : (x ++ ('s' :: 'r' :: 'c' :: '=' :: '"' ::
              (u ++ '"' :: replaceSrc p u rest))).get? (x.length + 4) =
              rp.get? (x.length - 1) := by
            rw [hseq]
            have hj : x.length - 1 < rp.length := by omega
            rw [show x.length + 4 = (x.length - 1) + 5 from by omega]
            exact patGet_path hj
          rw [hv1] at hv2
          have hmem : '"' ∈ rp := List.get?_mem hv2.symm
          have := hrq '"' hmem
          exact absurd this (by decide)
        have hlen2 : 6 + rp.length ≤
            (x ++ ('s' :: 'r' :: 'c' :: '=' :: q1 :: (p ++ q2 :: rest))).length := by
          simp only [List.length_append, List.length_cons]
          omega
        have hpt : ∀ i, i < 6 + rp.length →
            (x ++ ('s' :: 'r' :: 'c' :: '=' :: '"' ::
              (u ++ '"' :: replaceSrc p u rest))).get? i =
            (x ++ ('s' :: 'r' :: 'c' :: '=' :: q1 :: (p ++ q2 :: rest))).get? i ∨
            (∃ a b, (x ++ ('s' :: 'r' :: 'c' :: '=' :: '"' ::
              (u ++ '"' :: replaceSrc p u rest))).get? i = some a ∧
              (x ++ ('s' :: 'r' :: 'c' :: '=' :: q1 :: (p ++ q2 :: rest))).get? i = some b ∧
              isQuote a = true ∧ isQuote b = true) := by
          intro i hi
          by_cases hix : i < x.length
          · left
            rw [List.get?_append hix, List.get?_append hix]
          · have hle : x.length ≤ i := by omega
            rw [List.get?_append_right hle, List.get?_append_right hle]
            have hj : i - x.length = 0 ∨ i - x.length = 1 ∨ i - x.length = 2 ∨
                i - x.length = 3 ∨ i - x.length = 4 := by omega
            rcases hj with h | h | h | h | h
            · rw [h]; left; rfl
            · rw [h]; left; rfl
            · rw [h]; left; rfl
            · rw [h]; left; rfl
            · rw [h]; right; exact ⟨'"', q1, rfl, rfl, by decide, hq1⟩
        obtain ⟨w2, hw2⟩ := srcMatchAt_congr hrq hm hlen2 hpt
        refine ⟨w2, ?_⟩
        rw [hteq]
        exact hw2

/-- Backward transfer: a match of a quote-free pattern path rp in the
input of one replacement pass, rp different from the replaced path p,
gives a match at the same position in the pass's output. -/
theorem srcMatch_transfer_rev {rp p u : List Char}
    (hrq : ∀ c ∈ rp, isQuote c = false)
    (hpq : ∀ c ∈ p, isQuote c = false)
    (hud : ∀ c ∈ u, c ≠ '$')
    (hrp : rp ≠ p) :
    ∀ t x w, srcMatchAt rp (x ++ t) = some w →
      ∃ w2, srcMatchAt rp (x ++ replaceSrc p u t) = some w2 := by
  suffices H : ∀ n t, t.length ≤ n → ∀ x w, srcMatchAt rp (x ++ t) = some w →
      ∃ w2, srcMatchAt rp (x ++ replaceSrc p u t) = some w2 from
    fun t x w h => H t.length t (le_refl _) x w h
  intro n
  induction n with
  | zero =>
    intro t ht x w hm
    have hnil : t = [] := List.eq_nil_of_length_eq_zero (Nat.le_zero.mp ht)
    subst hnil
    rw [replaceSrc_nil]
    exact ⟨w, hm⟩
  | succ n ih =>
    intro t ht x w hm
    cases hmt : srcMatchAt p t with
    | none =>
      cases t with
      | nil =>
        rw [replaceSrc_nil]
        exact ⟨w, hm⟩
      | cons c t2 =>
        rw [replaceSrc_neg_cons hud hmt]
        rw [show x ++ c :: t2 = (x ++ [c]) ++ t2 from by simp] at hm
        obtain ⟨w2, hw2⟩ := ih t2 (by simp at ht; omega) (x ++ [c]) w hm
        refine ⟨w2, ?_⟩
        rw [show x ++ c :: replaceSrc p u t2 = (x ++ [c]) ++ replaceSrc p u t2 from by simp]
        exact hw2
    | some rest =>
      obtain ⟨q1, q2, hq1, hq2, hteq⟩ := srcMatchAt_some_iff.mp hmt
      rw [hteq] at hm
      by_cases hx : x = []
      · subst hx
        exfalso
        simp only [List.nil_append] at hm
        obtain ⟨qa, qb, hqa, hqb, hseq⟩ := srcMatchAt_some_iff.mp hm
        simp only [List.cons.injEq] at hseq
        obtain ⟨_, _, _, _, _, hrest2⟩ := hseq
        exact append_quote_clash hpq hrq (fun h => hrp h.symm) hq2 hqb hrest2
      · have hxlen : 1 ≤ x.length := by
          cases x with
          | nil => exact absurd rfl hx
          | cons a b => simp
        obtain ⟨qa, qb, hqa, hqb, hseq⟩ := srcMatchAt_some_iff.mp hm
        have hA : 6 + rp.length ≤ x.length + 5 := by
          by_contra hA2
          push_neg at hA2
          have hv1 : (x ++ ('s' :: 'r' :: 'c' :: '=' :: q1 ::
              (p ++ q2 :: rest))).get? (x.length + 4) = some q1 := by
            rw [List.get?_append_right (by omega)]
            simp only [Nat.add_sub_cancel_left]
            rfl
          have hv2 : (x ++ ('s' :: 'r' :: 'c' :: '=' :: q1 ::
              (p ++ q2 :: rest))).get? (x.length + 4) = rp.get? (x.length - 1) := by
            rw [hseq]
            have hj : x.length - 1 < rp.length := by omega
            rw [show x.length + 4 = (x.length - 1) + 5 from by omega]
            exact patGet_path hj
          rw [hv1] at hv2
          have hmem : q1 ∈ rp := List.get?_mem hv2.symm
          have hfalse := hrq q1 hmem
          rw [hq1] at hfalse
          exact absurd hfalse (by simp)
        have hlen2 : 6 + rp.length ≤
            (x ++ ('s' :: 'r' :: 'c' :: '=' :: '"' ::
              (u ++ '"' :: replaceSrc p u rest))).length := by
          simp only [List.length_append, List.length_cons]
          omega
        have hpt : ∀ i, i < 6 + rp.length →
            (x ++ ('s' :: 'r' :: 'c' :: '=' :: q1 :: (p ++ q2 :: rest))).get? i =
            (x ++ ('s' :: 'r' :: 'c' :: '=' :: '"' ::
              (u ++ '"' :: replaceSrc p u rest))).get? i ∨
            (∃ a b, (x ++ ('s' :: 'r' :: 'c' :: '=' :: q1 ::
                (p ++ q2 :: rest))).get? i = some a ∧
              (x ++ ('s' :: 'r' :: 'c' :: '=' :: '"' ::
                (u ++ '"' :: replaceSrc p u rest))).get? i = some b ∧
              isQuote a = true ∧ isQuote b = true) := by
          intro i hi
          by_cases hix : i < x.length
          · left
            rw [List.get?_append hix, List.get?_append hix]
          · have hle : x.length ≤ i := by omega
            rw [List.get?_append_right hle, List.get?_append_right hle]
            have hj : i - x.length = 0 ∨ i - x.length = 1 ∨ i - x.length = 2 ∨
                i - x.length = 3 ∨ i - x.length = 4 := by omega
            rcases hj with h | h | h | h | h
            · rw [h]; left; rfl
            · rw [h]; left; rfl
            · rw [h]; left; rfl
            · rw [h]; left; rfl
            · rw [h]; right; exact ⟨q1, '"', rfl, rfl, hq1, by decide⟩
        obtain ⟨w2, hw2⟩ := srcMatchAt_congr hrq hm hlen2 hpt
        refine ⟨w2, ?_⟩
        rw [replaceSrc_pos hud hmt]
        exact hw2

theorem quote_ne_s {c : Char} (h : isQuote c = true) : c ≠ 's' := by
  intro he
  rw [he] at h
  exact absurd h (by decide)

theorem hasSrcOcc_false_of_append {rp x r : List Char}
    (h : hasSrcOcc rp (x ++ r) = false) : hasSrcOcc rp r = false := by
  induction x with
  | nil => exact h
  | cons c t ih =>
    rw [List.cons_append, hasSrcOcc_cons] at h
    simp only [Bool.or_eq_false_iff] at h
    exact ih h.2

/-- The pattern rp cannot match starting inside (a suffix of) a
src-attribute header built from a quote-free path p distinct from rp:
partial suffixes start with a wrong letter, the quote, or sit inside p,
and the full header clashes p against rp at the opening quote. -/
theorem srcMatchAt_none_hdr_suffix {rp p : List Char} {q1 q2 : Char} {R v : List Char}
    (hrq : ∀ c ∈ rp, isQuote c = false)
    (hpq : ∀ c ∈ p, isQuote c = false)
    (hps : containsSub (cs "src=") p = false)
    (hrp : rp ≠ p)
    (hq1 : isQuote q1 = true) (hq2 : isQuote q2 = true)
    (hv : v <:+ 's' :: 'r' :: 'c' :: '=' :: q1 :: (p ++ [q2])) (hvne : v ≠ []) :
    srcMatchAt rp (v ++ R) = none := by
  rcases List.suffix_cons_iff.mp hv with h | hv2
  · subst h
    cases hm : srcMatchAt rp (('s' :: 'r' :: 'c' :: '=' :: q1 :: (p ++ [q2])) ++ R) with
    | none => rfl
    | some w =>
      exfalso
      obtain ⟨qa, qb, hqa, hqb, hs⟩ := srcMatchAt_some_iff.mp hm
      simp only [List.cons_append, List.append_assoc, List.singleton_append] at hs
      simp only [List.cons.injEq] at hs
      obtain ⟨_, _, _, _, _, hrest⟩ := hs
      exact append_quote_clash hpq hrq (fun h2 => hrp h2.symm) hq2 hqb hrest
  · rcases List.suffix_cons_iff.mp hv2 with h | hv3
    · subst h; exact srcMatchAt_none_of_head (by decide)
    · rcases List.suffix_cons_iff.mp hv3 with h | hv4
      · subst h; exact srcMatchAt_none_of_head (by decide)
      · rcases List.suffix_cons_iff.mp hv4 with h | hv5
        · subst h; exact srcMatchAt_none_of_head (by decide)
        · rcases List.suffix_cons_iff.mp hv5 with h | hv6
          · subst h; exact srcMatchAt_none_of_head (quote_ne_s hq1)
          · rcases suffix_append_cases hv6 with h | ⟨a2, ha2, ha2ne, hveq⟩
            · rcases List.suffix_cons_iff.mp h with h2 | h2
              · subst h2; exact srcMatchAt_none_of_head (quote_ne_s hq2)
              · rw [List.suffix_nil] at h2
                exact absurd h2 hvne
            · subst hveq
              rw [show (a2 ++ [q2]) ++ R = a2 ++ q2 :: R from by simp]
              exact srcMatchAt_none_within hpq hps ha2 ha2ne hq2

/-- After one pass replacing path p by a clean URL u, the output
contains no src-attribute occurrence of p at all. -/
theorem replaceSrc_no_occ {p u : List Char}
    (hpq : ∀ c ∈ p, isQuote c = false)
    (huq : ∀ c ∈ u, isQuote c = false)
    (hus : containsSub (cs "src=") u = false)
    (hud : ∀ c ∈ u, c ≠ '$')
    (hup : p ≠ u) :
    ∀ t, hasSrcOcc p (replaceSrc p u t) = false := by
  suffices H : ∀ n t, t.length ≤ n → hasSrcOcc p (replaceSrc p u t) = false from
    fun t => H t.length t (le_refl _)
  intro n
  induction n with
  | zero =>
    intro t ht
    have hnil : t = [] := List.eq_nil_of_length_eq_zero (Nat.le_zero.mp ht)
    subst hnil
    rw [replaceSrc_nil, hasSrcOcc_nil]
  | succ n ih =>
    intro t ht
    cases hmt : srcMatchAt p t with
    | none =>
      cases t with
      | nil => rw [replaceSrc_nil, hasSrcOcc_nil]
      | cons c t2 =>
        rw [replaceSrc_neg_cons hud hmt, hasSrcOcc_cons]
        rw [ih t2 (by simp at ht; omega)]
        cases hL : srcMatchAt p (c :: replaceSrc p u t2) with
        | none => rfl
        | some w =>
          exfalso
          obtain ⟨w2, hw2⟩ := srcMatch_transfer_fwd hpq huq hud hup t2 [c] w (by simpa using hL)
          simp only [List.singleton_append] at hw2
          rw [hmt] at hw2
          exact Option.noConfusion hw2
    | some rest =>
      rw [replaceSrc_pos hud hmt]
      rw [show 's' :: 'r' :: 'c' :: '=' :: '"' :: (u ++ '"' :: replaceSrc p u rest) =
        ('s' :: 'r' :: 'c' :: '=' :: '"' :: (u ++ ['"'])) ++ replaceSrc p u rest from by simp]
      rw [hasSrcOcc_append_eq (fun v hv hvne =>
        srcMatchAt_none_hdr_suffix hpq huq hus hup (by decide) (by decide) hv hvne)]
      exact ih rest (by have := srcMatchAt_rest_lt hmt; omega)

/-- One pass replacing any path p by a clean URL u distinct from rp
cannot create a src-attribute occurrence of rp that was not there. -/
theorem replaceSrc_keeps_no_occ {rp p u : List Char}
    (hrq : ∀ c ∈ rp, isQuote c = false)
    (huq : ∀ c ∈ u, isQuote c = false)
    (hus : containsSub (cs "src=") u = false)
    (hud : ∀ c ∈ u, c ≠ '$')
    (hru : rp ≠ u) :
    ∀ t, hasSrcOcc rp t = false → hasSrcOcc rp (replaceSrc p u t) = false := by
  suffices H : ∀ n t, t.length ≤ n → hasSrcOcc rp t = false →
      hasSrcOcc rp (replaceSrc p u t) = false from
    fun t => H t.length t (le_refl _)
  intro n
  induction n with
  | zero =>
    intro t ht _
    have hnil : t = [] := List.eq_nil_of_length_eq_zero (Nat.le_zero.mp ht)
    subst hnil
    rw [replaceSrc_nil, hasSrcOcc_nil]
  | succ n ih =>
    intro t ht hocc
    cases hmt : srcMatchAt p t with
    | none =>
      cases t with
      | nil => rw [replaceSrc_nil, hasSrcOcc_nil]
      | cons c t2 =>
        rw [hasSrcOcc_cons, Bool.or_eq_false_iff] at hocc
        rw [replaceSrc_neg_cons hud hmt, hasSrcOcc_cons]
        rw [ih t2 (by simp at ht; omega) hocc.2]
        cases hL : srcMatchAt rp (c :: replaceSrc p u t2) with
        | none => rfl
        | some w =>
          exfalso
          obtain ⟨w2, hw2⟩ := srcMatch_transfer_fwd hrq huq hud hru t2 [c] w (by simpa using hL)
          simp only [List.singleton_append] at hw2
          rw [hw2] at hocc
          exact absurd hocc.1 (by simp)
    | some rest =>
      obtain ⟨q1, q2, hq1, hq2, hteq⟩ := srcMatchAt_some_iff.mp hmt
      rw [replaceSrc_pos hud hmt]
      rw [show 's' :: 'r' :: 'c' :: '=' :: '"' :: (u ++ '"' :: replaceSrc p u rest) =
        ('s' :: 'r' :: 'c' :: '=' :: '"' :: (u ++ ['"'])) ++ replaceSrc p u rest from by simp]
      rw [hasSrcOcc_append_eq (fun v hv hvne =>
        srcMatchAt_none_hdr_suffix hrq huq hus hru (by decide) (by decide) hv hvne)]
      refine ih rest (by have := srcMatchAt_rest_lt hmt; omega) ?_
      rw [hteq] at hocc
      rw [show 's' :: 'r' :: 'c' :: '=' :: q1 :: (p ++ q2 :: rest) =
        ('s' :: 'r' :: 'c' :: '=' :: q1 :: (p ++ [q2])) ++ rest from by simp] at hocc
      exact hasSrcOcc_false_of_append hocc

/-- One pass replacing a clean path p by a clean URL u leaves the
src-attribute occurrences of any other clean path rp exactly as they
were. -/
theorem replaceSrc_preserves_other {rp p u : List Char}
    (hrq : ∀ c ∈ rp, isQuote c = false)
    (hpq : ∀ c ∈ p, isQuote c = false)
    (hps : containsSub (cs "src=") p = false)
    (huq : ∀ c ∈ u, isQuote c = false)
    (hus : containsSub (cs "src=") u = false)
    (hud : ∀ c ∈ u, c ≠ '$')
    (hrp : rp ≠ p) (hru : rp ≠ u) :
    ∀ t, hasSrcOcc rp (replaceSrc p u t) = hasSrcOcc rp t := by
  suffices H : ∀ n t, t.length ≤ n →
      hasSrcOcc rp (replaceSrc p u t) = hasSrcOcc rp t from
    fun t => H t.length t (le_refl _)
  intro n
  induction n with
  | zero =>
    intro t ht
    have hnil : t = [] := List.eq_nil_of_length_eq_zero (Nat.le_zero.mp ht)
    subst hnil
    rw [replaceSrc_nil]
  | succ n ih =>
    intro t ht
    cases hmt : srcMatchAt p t with
    | none =>
      cases t with
      | nil => rw [replaceSrc_nil]
      | cons c t2 =>
        rw [replaceSrc_neg_cons hud hmt, hasSrcOcc_cons, hasSrcOcc_cons]
        rw [ih t2 (by simp at ht; omega)]
        have hhead : (srcMatchAt rp (c :: replaceSrc p u t2)).isSome =
            (srcMatchAt rp (c :: t2)).isSome := by
          cases hL : srcMatchAt rp (c :: replaceSrc p u t2) with
          | some w =>
            obtain ⟨w2, hw2⟩ :=
              srcMatch_transfer_fwd hrq huq hud hru t2 [c] w (by simpa using hL)
            simp only [List.singleton_append] at hw2
            rw [hw2]
            rfl
          | none =>
            cases hR : srcMatchAt rp (c :: t2) with
            | none => rfl
            | some w =>
              obtain ⟨w2, hw2⟩ :=
                srcMatch_transfer_rev hrq hpq hud hrp t2 [c] w (by simpa using hR)
              simp only [List.singleton_append] at hw2
              rw [hL] at hw2
              exact Option.noConfusion hw2
        rw [hhead]
    | some rest =>
      obtain ⟨q1, q2, hq1, hq2, hteq⟩ := srcMatchAt_some_iff.mp hmt
      rw [replaceSrc_pos hud hmt]
      rw [show 's' :: 'r' :: 'c' :: '=' :: '"' :: (u ++ '"' :: replaceSrc p u rest) =
        ('s' :: 'r' :: 'c' :: '=' :: '"' :: (u ++ ['"'])) ++ replaceSrc p u rest from by simp]
      rw [hasSrcOcc_append_eq (fun v hv hvne =>
        srcMatchAt_none_hdr_suffix hrq huq hus hru (by decide) (by decide) hv hvne)]
      rw [ih rest (by have := srcMatchAt_rest_lt hmt; omega)]
      rw [hteq]
      rw [show 's' :: 'r' :: 'c' :: '=' :: q1 :: (p ++ q2 :: rest) =
        ('s' :: 'r' :: 'c' :: '=' :: q1 :: (p ++ [q2])) ++ rest from by simp]
      rw [hasSrcOcc_append_eq (fun v hv hvne =>
        srcMatchAt_none_hdr_suffix hrq hpq hps hrp hq1 hq2 hv hvne)]

/-- Occurrence-freeness of a path survives the remaining passes when
each remaining URL is clean and differs from the path. -/
theorem foldl_keeps_no_occ {rp : List Char}
    (hrq : ∀ c ∈ rp, isQuote c = false) :
    ∀ (l : List (List Char × List Char)) (acc : List Char),
    (∀ e ∈ l, (∀ c ∈ e.2, isQuote c = false) ∧
      containsSub (cs "src=") e.2 = false ∧ (∀ c ∈ e.2, c ≠ '$') ∧ rp ≠ e.2) →
    hasSrcOcc rp acc = false →
    hasSrcOcc rp (l.foldl (fun a pu => replaceSrc pu.1 pu.2 a) acc) = false := by
  intro l
  induction l with
  | nil => intro acc _ h; exact h
  | cons e0 l2 ih =>
    intro acc hl hacc
    rw [List.foldl_cons]
    obtain ⟨h1, h2, h2d, h3⟩ := hl e0 (List.mem_cons_self _ _)
    exact ih (replaceSrc e0.1 e0.2 acc)
      (fun e he => hl e (List.mem_cons_of_mem _ he))
      (replaceSrc_keeps_no_occ hrq h1 h2 h2d h3 acc hacc)

/-- Every mapped path has no src-attribute occurrence after the full
fold, for a clean mapping whose URLs avoid all of its paths. -/
theorem foldl_no_occ_of_mem :
    ∀ (l : List (List Char × List Char)) (acc : List Char),
    (∀ e ∈ l, (∀ c ∈ e.1, isQuote c = false) ∧ containsSub (cs "src=") e.1 = false ∧
      (∀ c ∈ e.2, isQuote c = false) ∧ containsSub (cs "src=") e.2 = false ∧
      (∀ c ∈ e.2, c ≠ '$')) →
    (∀ e ∈ l, ∀ e2 ∈ l, e.2 ≠ e2.1) →
    ∀ e ∈ l, hasSrcOcc e.1 (l.foldl (fun a pu => replaceSrc pu.1 pu.2 a) acc) = false := by
  intro l
  induction l with
  | nil => intro acc _ _ e he; exact absurd he (List.not_mem_nil e)
  | cons e0 l2 ih =>
    intro acc hcl hcr e he
    rw [List.foldl_cons]
    rcases List.mem_cons.mp he with rfl | he2
    · obtain ⟨hp1, hp2, hu1, hu2, hu3⟩ := hcl e (List.mem_cons_self _ _)
      have hne : e.1 ≠ e.2 :=
        Ne.symm (hcr e (List.mem_cons_self _ _) e (List.mem_cons_self _ _))
      exact foldl_keeps_no_occ hp1 l2 (replaceSrc e.1 e.2 acc)
        (fun e2 he2 =>
          ⟨(hcl e2 (List.mem_cons_of_mem _ he2)).2.2.1,
           (hcl e2 (List.mem_cons_of_mem _ he2)).2.2.2.1,
           (hcl e2 (List.mem_cons_of_mem _ he2)).2.2.2.2,
           Ne.symm (hcr e2 (List.mem_cons_of_mem _ he2) e (List.mem_cons_self _ _))⟩)
        (replaceSrc_no_occ hp1 hu1 hu2 hu3 hne acc)
    · exact ih (replaceSrc e0.1 e0.2 acc)
        (fun e2 h => hcl e2 (List.mem_cons_of_mem _ h))
        (fun e2 h e3 h3 => hcr e2 (List.mem_cons_of_mem _ h) e3 (List.mem_cons_of_mem _ h3))
        e he2

/-- The full fold leaves the occurrences of a clean path outside the
mapping exactly as they were. -/
theorem foldl_preserves_other {q : List Char}
    (hq : ∀ c ∈ q, isQuote c = false) :
    ∀ (l : List (List Char × List Char)) (acc : List Char),
    (∀ e ∈ l, (∀ c ∈ e.1, isQuote c = false) ∧ containsSub (cs "src=") e.1 = false ∧
      (∀ c ∈ e.2, isQuote c = false) ∧ containsSub (cs "src=") e.2 = false ∧
      (∀ c ∈ e.2, c ≠ '$')) →
    (∀ e ∈ l, q ≠ e.1 ∧ q ≠ e.2) →
    hasSrcOcc q (l.foldl (fun a pu => replaceSrc pu.1 pu.2 a) acc) = hasSrcOcc q acc := by
  intro l
  induction l with
  | nil => intro acc _ _; rfl
  | cons e0 l2 ih =>
    intro acc hcl hdist
    rw [List.foldl_cons]
    rw [ih (replaceSrc e0.1 e0.2 acc) (fun e he => hcl e (List.mem_cons_of_mem _ he))
      (fun e he => hdist e (List.mem_cons_of_mem _ he))]
    obtain ⟨hp1, hp2, hu1, hu2, hu3⟩ := hcl e0 (List.mem_cons_self _ _)
    obtain ⟨hd1, hd2⟩ := hdist e0 (List.mem_cons_self _ _)
    exact replaceSrc_preserves_other hq hp1 hp2 hu1 hu2 hu3 hd1 hd2 acc

/-- C9: For a mapping whose paths and URLs contain no quote characters
and no src= substring, whose URLs contain no dollar sign, and whose
URLs differ from all of its paths, replaceImageUrls removes every
src-attribute occurrence of every mapped path (in particular, when the
mapping covers every path referenced in a src attribute of the HTML,
no referenced path survives), and it keeps the presence indicator of
src-attribute occurrences of any quote-free path outside the mapping
unchanged.  Without these cleanliness conditions the round trip fails:
the counterexample shows a URL ending in src=" that combines with the
following text into a fresh occurrence of an already-replaced path,
and a URL containing the GetSubstitution template of a dollar sign and
an ampersand, which String.replace expands to the matched text itself. -/
theorem replace_image_urls_round_trip
    (html : List Char) (m : List (List Char × List Char))
    (hben : ∀ e ∈ m, (∀ c ∈ e.1, isQuote c = false) ∧
        containsSub (cs "src=") e.1 = false ∧
        (∀ c ∈ e.2, isQuote c = false) ∧
        containsSub (cs "src=") e.2 = false ∧
        (∀ c ∈ e.2, c ≠ '$'))
    (hcross : ∀ e ∈ m, ∀ e2 ∈ m, e.2 ≠ e2.1) :
    (∀ e ∈ m, hasSrcOcc e.1 (replaceImageUrls html m) = false) ∧
    (∀ pth ∈ srcAttrPaths html, (∃ e ∈ m, e.1 = pth) →
      hasSrcOcc pth (replaceImageUrls html m) = false) ∧
    (∀ q, (∀ c ∈ q, isQuote c = false) →
      (∀ e ∈ m, q ≠ e.1 ∧ q ≠ e.2) →
      hasSrcOcc q (replaceImageUrls html m) = hasSrcOcc q html) := by
  have h1 : ∀ e ∈ m, hasSrcOcc e.1 (replaceImageUrls html m) = false :=
    foldl_no_occ_of_mem m html hben hcross
  refine ⟨h1, fun pth hpth hcov => ?_,
    fun q hq hdist => foldl_preserves_other hq m html hben hdist⟩
  obtain ⟨e, hem, he1⟩ := hcov
  rw [← he1]
  exact h1 e hem

/-- The round trip fails for adversarial URLs.  First part: the
mapping covers both paths referenced in src attributes of the HTML,
yet the output still contains a src-attribute occurrence of the mapped
path b, because the URL substituted for c ends in src=" and combines
with the following text into a fresh occurrence.  Second part: the
mapping covers the only referenced path b, but its URL contains the
dollar-ampersand template, which String.replace substitutes by the
matched text src="b", so the occurrence of b survives its own
replacement pass. -/
theorem replace_image_urls_round_trip_cx :
    ((∀ pth ∈ srcAttrPaths (cs "src=\"b\"src=\"c\""),
      ∃ e ∈ [(cs "b", cs "x"), (cs "c", cs "src=\"b")], e.1 = pth) ∧
    hasSrcOcc (cs "b")
      (replaceImageUrls (cs "src=\"b\"src=\"c\"")
        [(cs "b", cs "x"), (cs "c", cs "src=\"b")]) = true) ∧
    ((∀ pth ∈ srcAttrPaths (cs "src=\"b\""),
      ∃ e ∈ [(cs "b", cs "x$&y")], e.1 = pth) ∧
    hasSrcOcc (cs "b")
      (replaceImageUrls (cs "src=\"b\"") [(cs "b", cs "x$&y")]) = true) := by
  decide

/-- Witness: the round-trip theorem applied to a concrete clean mapping
removes the only mapped path occurrence. -/
theorem replace_image_urls_round_trip_witness :
    hasSrcOcc (cs "a.png")
      (replaceImageUrls (cs "<img src=\"a.png\">")
        [(cs "a.png", cs "https://h/x")]) = false :=
  (replace_image_urls_round_trip (cs "<img src=\"a.png\">")
    [(cs "a.png", cs "https://h/x")] (by decide) (by decide)).1
    (cs "a.png", cs "https://h/x") (by decide)

end GhostyPosty
